import Mathlib

/-!
Verification of the Vigenère Lab analysis engine (`src/App.tsx`).

Modeling conventions:
* JS strings are modeled as their sequences of UTF-16 code units, `Str := List ℕ`.
* JS numbers are modeled as exact rationals (`ℚ`) where fractional values occur,
  and as `ℕ`/`ℤ` where the program only ever holds integers.
* JS arrays indexed by integers are modeled as `List`, JS objects used as
  integer-keyed vote tables as functions `ℕ → ℕ` (absent key = 0, matching
  `votes[f] = (votes[f] || 0) + 1`), and JS objects used as string-keyed maps
  as association lists in insertion order (which is exactly the enumeration
  order `Object.entries` gives for non-integer-like string keys).
* `Array.prototype.sort` with a numeric comparator is a stable sort; it is
  modeled by a stable insertion sort, which is extensionally the same function.
-/

namespace VigLab

/-- Strings as sequences of UTF-16 code units. -/
abbrev Str := List ℕ

/-- English letter frequencies A..Z, the source's `ENG` table. -/
def ENG : List ℚ :=
  [0.08167, 0.01492, 0.02782, 0.04253, 0.12702, 0.02228, 0.02015, 0.06094, 0.06966,
   0.00153, 0.00772, 0.04025, 0.02406, 0.06749, 0.07507, 0.01929, 0.00095, 0.05987,
   0.06327, 0.09056, 0.02758, 0.00978, 0.0236, 0.0015, 0.01974, 0.00074]

/-- `ENG[i]`. -/
def eng (i : ℕ) : ℚ := ENG.getD i 0

/-- `c[idx]++` on a JS counter array. -/
def bump (c : List ℕ) (idx : ℕ) : List ℕ := c.set idx (c.getD idx 0 + 1)

/-- The 26-bucket counting loops of `ioc` and `chiForShift`: start from
`new Array(26).fill(0)` and bump bucket `f ch` for each character. -/
def histo (f : ℕ → ℕ) (s : Str) : List ℕ :=
  s.foldl (fun c ch => bump c (f ch)) (List.replicate 26 0)

/-- `ioc` from the source: bucket counts `c`, `num = Σ x (x-1)`,
result `num / (N (N-1))`, and `0` when the length is below 2. -/
def ioc (s : Str) : ℚ :=
  if s.length < 2 then 0
  else
    let c := histo (fun ch => ch - 65) s
    let N := s.length
    let num : ℕ := c.foldl (fun acc x => acc + x * (x - 1)) 0
    (num : ℚ) / ((N : ℚ) * ((N : ℚ) - 1))

/-- `cols[j] += ch` on the column array. -/
def appendAt (cols : List Str) (j : ℕ) (ch : ℕ) : List Str :=
  cols.set j (cols.getD j [] ++ [ch])

/-- The loop of `splitColumns`: character at stream position `i` is appended
to column `i % k`. -/
def splitColumnsAux (k : ℕ) : Str → ℕ → List Str → List Str
  | [], _, cols => cols
  | ch :: rest, i, cols => splitColumnsAux k rest (i + 1) (appendAt cols (i % k) ch)

/-- `splitColumns` from the source. -/
def splitColumns (s : Str) (k : ℕ) : List Str :=
  splitColumnsAux k s 0 (List.replicate k [])

/-- The bucket index `(ch.charCodeAt(0) - 65 - k + 26) % 26` of `chiForShift`
(JS `%` is truncated remainder, `Int.tmod`). -/
def chiShiftIdx (k : ℕ) (ch : ℕ) : ℕ := (((ch : ℤ) - 65 - (k : ℤ) + 26).tmod 26).toNat

/-- `chiForShift` from the source: `1e9` on an empty column, otherwise the
accumulated `(O - E)^2 / (E || 1)` over the 26 buckets. -/
def chiForShift (col : Str) (k : ℕ) : ℚ :=
  let N := col.length
  if N = 0 then 10 ^ 9
  else
    let freq := histo (chiShiftIdx k) col
    (List.range 26).foldl (fun chi i =>
      let E : ℚ := eng i * N
      let O : ℚ := (freq.getD i 0 : ℚ)
      chi + (O - E) * (O - E) / (if E = 0 then 1 else E)) 0

/-- `Number(x.toFixed(3))`: rounding to 3 decimal places; on a halfway tie
JS `toFixed` picks the larger value. -/
def round3 (x : ℚ) : ℚ := (⌊x * 1000 + 1 / 2⌋ : ℚ) / 1000

/-- `chiData`: the displayed per-shift chi-square profile, one rounded entry
per shift in 0..25. -/
def chiData (col : Str) : List (ℕ × ℚ) :=
  (List.range 26).map (fun s => (s, round3 (chiForShift col s)))

/-- `bestShift` from the source: `reduce` over `chiData` keeping the entry
with strictly smaller `chi`, seeded with `chiData[0] || { shift: 0, chi: 1e9 }`. -/
def bestShift (col : Str) : ℕ :=
  ((chiData col).foldl (fun best d => if d.2 < best.2 then d else best)
    ((chiData col).headD (0, 10 ^ 9))).1

/-- The regex test `/[A-Za-z]/.test(ch)`. -/
def isLetterCode (c : ℕ) : Bool := (65 ≤ c && c ≤ 90) || (97 ≤ c && c ≤ 122)

/-- `ch.toUpperCase()` on a single basic-Latin character. -/
def upperCode (c : ℕ) : ℕ := if 97 ≤ c ∧ c ≤ 122 then c - 32 else c

/-- The fixed placeholder character `·` (U+00B7) for undetermined letters. -/
def placeholder : ℕ := 183

/-- `String.fromCharCode(((upper.charCodeAt(0) - 65 - s + 26) % 26) + 65)`.
The inner value is always above `-26`, so `toNat` agrees with JS `ToUint16`. -/
def decChar (c : ℕ) (s : ℤ) : ℕ := ((((upperCode c : ℤ) - 65 - s + 26).tmod 26) + 65).toNat

/-- The character loop of `decodePartial`; `j` counts letters seen so far.
An out-of-range key access (JS `undefined`) and a `null` slot both emit the
placeholder. -/
def decodeAux (ks : List (Option ℤ)) (k : ℕ) : Str → ℕ → Str
  | [], _ => []
  | ch :: rest, j =>
    if isLetterCode ch then
      match ks.get? (j % k) with
      | some (some s) => decChar ch s :: decodeAux ks k rest (j + 1)
      | _ => placeholder :: decodeAux ks k rest (j + 1)
    else ch :: decodeAux ks k rest j

/-- `decodePartial` from the source, including the `!original || k <= 0`
pass-through guard. -/
def decodePartial (original : Str) (keyShifts : List (Option ℤ)) (k : ℕ) : Str :=
  if original = [] ∨ k = 0 then original else decodeAux keyShifts k original 0

/-- Stable insertion of `x` below every already-placed element with an equal
or higher score: what JS's stable `Array.prototype.sort` does with the
comparator `(a, b) => score(b) - score(a)` when `x` arrives after the
elements already in the accumulator. -/
def insDesc {α β : Type} [LinearOrder β] (score : α → β) (x : α) : List α → List α
  | [] => [x]
  | y :: ys => if score x ≤ score y then y :: insDesc score x ys else x :: y :: ys

/-- `[...l].sort((a, b) => score(b) - score(a))`: a stable sort, descending
by score, modeled as stable insertion sort (extensionally the same list). -/
def jsSortDesc {α β : Type} [LinearOrder β] (score : α → β) (l : List α) : List α :=
  l.foldl (fun acc x => insDesc score x acc) []

/-- JS `a || b` on an optional number: `undefined` and `0` are falsy. -/
def jsOrNat (a : Option ℕ) (b : ℕ) : ℕ :=
  match a with
  | some v => if v = 0 then b else v
  | none => b

/-- `workingK` from the source: the pinned `selectedK` when truthy, else
`k1 || k2 || 1` where `k1`/`k2` are the first entries of the vote table and
the IoC sweep sorted descending by votes resp. mean IoC. -/
def workingK (selectedK : Option ℕ) (kasiskiData : List (ℕ × ℕ))
    (iocData : List (ℕ × ℚ)) : ℕ :=
  if selectedK.getD 0 ≠ 0 then selectedK.getD 0
  else
    let k1 := (jsSortDesc Prod.snd kasiskiData).head?.map Prod.fst
    let k2 := (jsSortDesc Prod.snd iocData).head?.map Prod.fst
    jsOrNat k1 (jsOrNat k2 1)

/-- `s.slice(i, i + n)`. -/
def slice (s : Str) (i n : ℕ) : Str := (s.drop i).take n

/-- `(map[g] ||= []).push(i)` on an insertion-ordered string-keyed object. -/
def addPos (g : Str) (i : ℕ) : List (Str × List ℕ) → List (Str × List ℕ)
  | [] => [(g, [i])]
  | (g', ps) :: rest =>
    if g' = g then (g', ps ++ [i]) :: rest else (g', ps) :: addPos g i rest

/-- The collection loop of `findRepeats`: windows `i = 0 .. s.length - n`
(none when `n` exceeds the length). -/
def buildMap (s : Str) (n : ℕ) : List (Str × List ℕ) :=
  (List.range (s.length + 1 - n)).foldl (fun m i => addPos (slice s i n) i m) []

/-- `findRepeats` from the source: keep grams with at least two occurrences,
sort by occurrence count descending (stable, so discovery order on ties). -/
def findRepeats (s : Str) (n : ℕ) : List (Str × List ℕ) :=
  jsSortDesc (fun e => e.2.length) ((buildMap s n).filter (fun e => 2 ≤ e.2.length))

/-- `votes[f] = (votes[f] || 0) + 1` on the vote table. -/
def bumpVote (v : ℕ → ℕ) (f : ℕ) : ℕ → ℕ := fun g => if g = f then v f + 1 else v g

/-- The inner loop of `factorVotes`: `f` runs over `2 .. min(limit, d)`. -/
def factorVotesInner (d limit : ℕ) (v : ℕ → ℕ) : ℕ → ℕ :=
  (List.range' 2 (min limit d - 1)).foldl
    (fun v f => if d % f = 0 then bumpVote v f else v) v

/-- `factorVotes` from the source. -/
def factorVotes (distances : List ℕ) (limit : ℕ) : ℕ → ℕ :=
  distances.foldl (fun v d => factorVotesInner d limit v) (fun _ => 0)

/-! ### Histogram lemmas -/

lemma bump_length (c : List ℕ) (idx : ℕ) : (bump c idx).length = c.length := by
  simp [bump]

lemma bump_getD (c : List ℕ) (idx i : ℕ) (hi : i < c.length) :
    (bump c idx).getD i 0 = c.getD i 0 + if idx = i then 1 else 0 := by
  rcases eq_or_ne idx i with h | h
  · subst h
    simp [bump, List.getD_eq_getElem?_getD, List.getElem?_set_self hi]
  · simp [bump, List.getD_eq_getElem?_getD, List.getElem?_set_ne h, h]

lemma histo_fold_length (f : ℕ → ℕ) (s : Str) (c : List ℕ) :
    (s.foldl (fun c ch => bump c (f ch)) c).length = c.length := by
  induction s generalizing c with
  | nil => rfl
  | cons ch rest ih => rw [List.foldl_cons, ih, bump_length]

lemma histo_length (f : ℕ → ℕ) (s : Str) : (histo f s).length = 26 := by
  unfold histo; rw [histo_fold_length, List.length_replicate]

lemma histo_fold_getD (f : ℕ → ℕ) (s : Str) (c : List ℕ) (i : ℕ) (hi : i < c.length) :
    (s.foldl (fun c ch => bump c (f ch)) c).getD i 0
      = c.getD i 0 + s.countP (fun ch => decide (f ch = i)) := by
  induction s generalizing c with
  | nil => simp
  | cons ch rest ih =>
    rw [List.foldl_cons, ih (bump c (f ch)) (by rw [bump_length]; exact hi),
      bump_getD c (f ch) i hi, List.countP_cons]
    by_cases h : f ch = i
    · simp [h]; omega
    · simp [h]

lemma histo_getD (f : ℕ → ℕ) (s : Str) (i : ℕ) (hi : i < 26) :
    (histo f s).getD i 0 = s.countP (fun ch => decide (f ch = i)) := by
  unfold histo
  rw [histo_fold_getD _ _ _ _ (by rw [List.length_replicate]; exact hi),
    List.getD_eq_getElem?_getD, List.getElem?_replicate, if_pos hi]
  simp

/-! ### Summation bridges -/

lemma foldl_add_eq_sum (g : ℕ → ℕ) (l : List ℕ) (a : ℕ) :
    l.foldl (fun acc x => acc + g x) a = a + (l.map g).sum := by
  induction l generalizing a with
  | nil => simp
  | cons x xs ih => rw [List.foldl_cons, ih, List.map_cons, List.sum_cons]; omega

lemma map_sum_eq_range_sum (g : ℕ → ℕ) (l : List ℕ) :
    (l.map g).sum = ∑ i ∈ Finset.range l.length, g (l.getD i 0) := by
  induction l with
  | nil => simp
  | cons x xs ih =>
    rw [List.map_cons, List.sum_cons, List.length_cons, Finset.sum_range_succ']
    simp only [List.getD_cons_succ, List.getD_cons_zero, ih]
    omega

lemma natCast_mul_pred (x : ℕ) : ((x * (x - 1) : ℕ) : ℚ) = (x : ℚ) * ((x : ℚ) - 1) := by
  cases x with
  | zero => simp
  | succ n => push_cast [Nat.succ_sub_one]; ring

/-! ### The letter counts named by the specification -/

/-- The claim-side letter counts `c_0 .. c_25`: how often each letter A..Z
occurs in the stream. -/
def letterCount (s : Str) (i : ℕ) : ℕ := s.countP (fun c => decide (c = 65 + i))

lemma ioc_counts (s : Str) (hAZ : ∀ c ∈ s, 65 ≤ c ∧ c ≤ 90) (i : ℕ) (hi : i < 26) :
    (histo (fun ch => ch - 65) s).getD i 0 = letterCount s i := by
  rw [histo_getD _ _ _ hi]
  exact List.countP_congr fun c hc => by
    have := hAZ c hc
    constructor <;> (intro h; simp only [decide_eq_true_eq] at *; omega)

/-- **C5**: `ioc` computes `Σ c_i (c_i - 1) / (N (N - 1))` for streams of
length at least 2, is `0` below length 2, and takes the documented values on
`"AAAA"`, `""` and `"A"`. -/
theorem C5_ioc_formula :
    (∀ s : Str, (∀ c ∈ s, 65 ≤ c ∧ c ≤ 90) → 2 ≤ s.length →
      ioc s = (∑ i ∈ Finset.range 26,
          (letterCount s i : ℚ) * ((letterCount s i : ℚ) - 1))
        / ((s.length : ℚ) * ((s.length : ℚ) - 1)))
    ∧ (∀ s : Str, s.length < 2 → ioc s = 0)
    ∧ ioc [65, 65, 65, 65] = 1 ∧ ioc [] = 0 ∧ ioc [65] = 0 := by
  have hAAAA : ioc [65, 65, 65, 65] = 1 := by
    have h : (histo (fun ch => ch - 65) [65, 65, 65, 65]).foldl
        (fun acc x => acc + x * (x - 1)) 0 = 12 := by decide
    norm_num [ioc, h]
  refine ⟨?_, ?_, hAAAA, by norm_num [ioc], by norm_num [ioc]⟩
  · intro s hAZ hN
    unfold ioc
    rw [if_neg (by omega)]
    have hnum : (histo (fun ch => ch - 65) s).foldl (fun acc x => acc + x * (x - 1)) 0
        = ∑ i ∈ Finset.range 26, letterCount s i * (letterCount s i - 1) := by
      rw [foldl_add_eq_sum (fun x => x * (x - 1)), map_sum_eq_range_sum,
        histo_length]
      simp only [Nat.zero_add]
      exact Finset.sum_congr rfl fun i hi => by
        rw [ioc_counts s hAZ i (Finset.mem_range.mp hi)]
    simp only [hnum, Nat.cast_sum]
    congr 1
    exact Finset.sum_congr rfl fun i _ => natCast_mul_pred _
  · intro s h
    unfold ioc
    rw [if_pos h]

/-- Witness for C5 at the concrete stream `"ABAB"`. -/
theorem C5_ioc_formula_witness :
    ioc [65, 66, 65, 66] = (∑ i ∈ Finset.range 26,
        (letterCount [65, 66, 65, 66] i : ℚ)
          * ((letterCount [65, 66, 65, 66] i : ℚ) - 1))
      / (((4 : ℕ) : ℚ) * (((4 : ℕ) : ℚ) - 1)) :=
  C5_ioc_formula.1 [65, 66, 65, 66] (by decide) (by decide)

/-! ### Factor voting -/

lemma factorVotes_range'_go (d g : ℕ) : ∀ (c a : ℕ) (v : ℕ → ℕ),
    ((List.range' a c).foldl (fun v f => if d % f = 0 then bumpVote v f else v) v) g
      = v g + if a ≤ g ∧ g < a + c ∧ d % g = 0 then 1 else 0 := by
  intro c
  induction c with
  | zero =>
    intro a v
    rw [if_neg (by omega)]
    rfl
  | succ c ih =>
    intro a v
    rw [List.range'_succ, List.foldl_cons]
    by_cases hd : d % a = 0
    · rw [if_pos hd, ih (a + 1) (bumpVote v a)]
      by_cases hg : g = a
      · subst hg
        rw [if_neg (by omega), if_pos ⟨le_refl g, by omega, hd⟩]
        simp [bumpVote]
      · have hb : bumpVote v a g = v g := by simp [bumpVote, hg]
        rw [hb]
        have : (a + 1 ≤ g ∧ g < a + 1 + c ∧ d % g = 0)
            ↔ (a ≤ g ∧ g < a + (c + 1) ∧ d % g = 0) := by
          constructor <;> rintro ⟨h1, h2, h3⟩ <;>
            exact ⟨by omega, by omega, h3⟩
        rw [if_congr this rfl rfl]
    · rw [if_neg hd, ih (a + 1) v]
      by_cases hg : g = a
      · subst hg
        rw [if_neg (by omega), if_neg (by rintro ⟨-, -, h3⟩; exact hd h3)]
      · have : (a + 1 ≤ g ∧ g < a + 1 + c ∧ d % g = 0)
            ↔ (a ≤ g ∧ g < a + (c + 1) ∧ d % g = 0) := by
          constructor <;> rintro ⟨h1, h2, h3⟩ <;>
            exact ⟨by omega, by omega, h3⟩
        rw [if_congr this rfl rfl]

lemma factorVotesInner_apply (d limit : ℕ) (v : ℕ → ℕ) (g : ℕ) :
    factorVotesInner d limit v g
      = v g + if 2 ≤ g ∧ g ≤ limit ∧ g ≤ d ∧ d % g = 0 then 1 else 0 := by
  unfold factorVotesInner
  rw [factorVotes_range'_go]
  have : (2 ≤ g ∧ g < 2 + (min limit d - 1) ∧ d % g = 0)
      ↔ (2 ≤ g ∧ g ≤ limit ∧ g ≤ d ∧ d % g = 0) := by
    constructor
    · rintro ⟨h1, h2, h3⟩; exact ⟨h1, by omega, by omega, h3⟩
    · rintro ⟨h1, h2, h3, h4⟩; exact ⟨h1, by omega, h4⟩
  rw [if_congr this rfl rfl]

lemma factorVotes_go (limit g : ℕ) : ∀ (ds : List ℕ) (v : ℕ → ℕ),
    (ds.foldl (fun v d => factorVotesInner d limit v) v) g
      = v g + ds.countP (fun d => decide (2 ≤ g ∧ g ≤ limit ∧ g ≤ d ∧ d % g = 0)) := by
  intro ds
  induction ds with
  | nil => intro v; simp
  | cons d rest ih =>
    intro v
    rw [List.foldl_cons, ih, factorVotesInner_apply, List.countP_cons]
    simp only [decide_eq_true_eq]
    omega

/-- **C7**: `factorVotes` gives factor `f` one vote per distance `d` with
`2 ≤ f ≤ min(limit, d)` and `f ∣ d`, and nothing else; on `[12]` with limit 30
the voted factors are exactly `{2, 3, 4, 6, 12}`, each with count 1. -/
theorem C7_factorVotes_counts :
    (∀ (distances : List ℕ) (limit f : ℕ),
      factorVotes distances limit f
        = distances.countP (fun d => decide (2 ≤ f ∧ f ≤ limit ∧ f ≤ d ∧ d % f = 0)))
    ∧ (List.range 31).filter (fun f => factorVotes [12] 30 f ≠ 0) = [2, 3, 4, 6, 12]
    ∧ factorVotes [12] 30 2 = 1 ∧ factorVotes [12] 30 3 = 1
    ∧ factorVotes [12] 30 4 = 1 ∧ factorVotes [12] 30 6 = 1
    ∧ factorVotes [12] 30 12 = 1 ∧ factorVotes [12] 30 5 = 0
    ∧ factorVotes [12] 30 24 = 0 := by
  refine ⟨?_, by decide, by decide, by decide, by decide, by decide, by decide,
    by decide, by decide⟩
  intro distances limit f
  unfold factorVotes
  rw [factorVotes_go]
  simp

/-! ### Chi-square evaluation -/

lemma foldl_range_add (F : ℕ → ℚ) : ∀ (n : ℕ) (a : ℚ),
    (List.range n).foldl (fun acc i => acc + F i) a = a + ∑ i ∈ Finset.range n, F i := by
  intro n
  induction n with
  | zero => intro a; simp
  | succ n ih =>
    intro a
    rw [List.range_succ, List.foldl_append, ih, Finset.sum_range_succ]
    simp [add_assoc]

lemma chiForShift_eq_sum (col : Str) (k : ℕ) (h : col ≠ []) :
    chiForShift col k = ∑ i ∈ Finset.range 26,
      (((histo (chiShiftIdx k) col).getD i 0 : ℚ) - eng i * col.length)
        * (((histo (chiShiftIdx k) col).getD i 0 : ℚ) - eng i * col.length)
        / (if eng i * col.length = 0 then 1 else eng i * col.length) := by
  unfold chiForShift
  rw [if_neg (by simpa using h), foldl_range_add]
  simp

lemma eng_nonneg (i : ℕ) : 0 ≤ eng i := by
  by_cases h : i < 26
  · interval_cases i <;> norm_num [eng, ENG]
  · have : eng i = 0 := by
      unfold eng
      rw [List.getD_eq_getElem?_getD, List.getElem?_eq_none (by simp [ENG]; omega)]
      rfl
    rw [this]

lemma eng_pos (i : ℕ) (hi : i < 26) : 0 < eng i := by
  interval_cases i <;> norm_num [eng, ENG]

lemma chi_term_nonneg (col : Str) (k i : ℕ) :
    0 ≤ (((histo (chiShiftIdx k) col).getD i 0 : ℚ) - eng i * col.length)
      * (((histo (chiShiftIdx k) col).getD i 0 : ℚ) - eng i * col.length)
      / (if eng i * col.length = 0 then 1 else eng i * col.length) := by
  apply div_nonneg (mul_self_nonneg _)
  split
  · norm_num
  · exact mul_nonneg (eng_nonneg i) (Nat.cast_nonneg _)

lemma chi_term_le (col : Str) (k j : ℕ) (h : col ≠ []) (hj : j < 26) :
    (((histo (chiShiftIdx k) col).getD j 0 : ℚ) - eng j * col.length)
      * (((histo (chiShiftIdx k) col).getD j 0 : ℚ) - eng j * col.length)
      / (if eng j * col.length = 0 then 1 else eng j * col.length)
    ≤ chiForShift col k := by
  rw [chiForShift_eq_sum col k h]
  exact Finset.single_le_sum (fun i _ => chi_term_nonneg col k i) (Finset.mem_range.mpr hj)

lemma chi_pair_le (col : Str) (k j1 j2 : ℕ) (h : col ≠ []) (hj1 : j1 < 26)
    (hj2 : j2 < 26) (hne : j1 ≠ j2) :
    (((histo (chiShiftIdx k) col).getD j1 0 : ℚ) - eng j1 * col.length)
      * (((histo (chiShiftIdx k) col).getD j1 0 : ℚ) - eng j1 * col.length)
      / (if eng j1 * col.length = 0 then 1 else eng j1 * col.length)
    + (((histo (chiShiftIdx k) col).getD j2 0 : ℚ) - eng j2 * col.length)
      * (((histo (chiShiftIdx k) col).getD j2 0 : ℚ) - eng j2 * col.length)
      / (if eng j2 * col.length = 0 then 1 else eng j2 * col.length)
    ≤ chiForShift col k := by
  rw [chiForShift_eq_sum col k h]
  have hsub : ({j1, j2} : Finset ℕ) ⊆ Finset.range 26 := by
    intro x hx
    simp only [Finset.mem_insert, Finset.mem_singleton] at hx
    rcases hx with rfl | rfl
    · exact Finset.mem_range.mpr hj1
    · exact Finset.mem_range.mpr hj2
  have hsum := Finset.sum_le_sum_of_subset_of_nonneg hsub
    (fun i _ _ => chi_term_nonneg col k i)
  rw [Finset.sum_pair hne] at hsum
  exact hsum

lemma round3_eq (x : ℚ) (n : ℤ) (h1 : (n : ℚ) ≤ x * 1000 + 1 / 2)
    (h2 : x * 1000 + 1 / 2 < n + 1) : round3 x = (n : ℚ) / 1000 := by
  unfold round3
  rw [Int.floor_eq_iff.mpr ⟨h1, h2⟩]

/-! ### C1: the chi-square formula as the specification words it -/

/-- The observed histogram the claim describes: each column letter mapped to
`(letterValue − shift) mod 26` (mathematical mod). -/
def observedCount (col : Str) (shift i : ℕ) : ℕ :=
  col.countP (fun (c : ℕ) => decide ((((c : ℤ) - 65 - shift) % 26) = (i : ℤ)))

/-- The chi-square statistic exactly as the claim words it, with divisor
`max(E_i, 1)`. -/
def chiClaimed (col : Str) (shift : ℕ) : ℚ :=
  ∑ i ∈ Finset.range 26,
    ((observedCount col shift i : ℚ) - eng i * col.length)
      * ((observedCount col shift i : ℚ) - eng i * col.length)
      / max (eng i * col.length) 1

lemma observedCount_eq_histo (col : Str) (shift : ℕ) (hAZ : ∀ c ∈ col, 65 ≤ c ∧ c ≤ 90)
    (hs : shift < 26) (i : ℕ) (hi : i < 26) :
    (histo (chiShiftIdx shift) col).getD i 0 = observedCount col shift i := by
  rw [histo_getD _ _ _ hi]
  unfold observedCount
  refine List.countP_congr fun c hc => ?_
  have hc' := hAZ c hc
  simp only [decide_eq_true_eq]
  unfold chiShiftIdx
  rw [Int.tmod_eq_emod (by omega) (by omega)]
  omega

/-- **C1 counterexample**: on the single-letter column `"A"` with shift 0,
`chiForShift` does not equal the claimed formula with divisor `max(E_i, 1)`
(the code divides by `E_i` itself whenever `E_i ≠ 0`, and every `E_i` is
below 1 here). -/
theorem C1_counterexample : chiForShift [65] 0 ≠ chiClaimed [65] 0 := by
  have h1 : chiForShift [65] 0 = 9183291833 / 816700000 := by
    rw [chiForShift_eq_sum [65] 0 (by decide)]
    have hfreq : histo (chiShiftIdx 0) [65]
        = [1, 0, 0, 0, 0, 0, 0, 0, 0, 0, 0, 0, 0, 0, 0, 0, 0, 0, 0, 0, 0, 0, 0, 0, 0, 0] := by
      decide
    rw [hfreq]
    simp only [Finset.sum_range_succ, Finset.sum_range_zero, eng, ENG,
      List.length_cons, List.length_nil]
    norm_num
  have h2 : chiClaimed [65] 0 = 1804313399 / 2000000000 := by
    unfold chiClaimed observedCount
    simp only [Finset.sum_range_succ, Finset.sum_range_zero, eng, ENG,
      List.countP_cons, List.countP_nil, List.length_cons, List.length_nil, max_def]
    norm_num
  rw [h1, h2]
  norm_num

/-- **C1 (amended)**: for a nonempty A–Z column and a shift in `[0, 25]`,
`chiForShift` equals `Σ (O_i − E_i)² / E_i`: since every `E_i = englishFreq_i × N`
is positive, the JS guard `E || 1` leaves the divisor at `E_i` itself — it is
not `max(E_i, 1)`. -/
theorem C1_chiForShift_formula (col : Str) (shift : ℕ) (hcol : col ≠ [])
    (hAZ : ∀ c ∈ col, 65 ≤ c ∧ c ≤ 90) (hs : shift < 26) :
    chiForShift col shift = ∑ i ∈ Finset.range 26,
      ((observedCount col shift i : ℚ) - eng i * col.length)
        * ((observedCount col shift i : ℚ) - eng i * col.length)
        / (eng i * col.length) := by
  rw [chiForShift_eq_sum col shift hcol]
  refine Finset.sum_congr rfl fun i hi => ?_
  have hi26 := Finset.mem_range.mp hi
  rw [observedCount_eq_histo col shift hAZ hs i hi26]
  have hE : eng i * (col.length : ℚ) ≠ 0 := by
    have h1 := eng_pos i hi26
    have h2 : (0 : ℚ) < col.length := by
      have : col.length ≠ 0 := by simpa using hcol
      positivity
    positivity
  rw [if_neg hE]

/-- Witness for C1 at the column `"A"` with shift 0. -/
theorem C1_chiForShift_formula_witness :
    chiForShift [65] 0 = ∑ i ∈ Finset.range 26,
      ((observedCount [65] 0 i : ℚ) - eng i * (([65] : Str).length : ℚ))
        * ((observedCount [65] 0 i : ℚ) - eng i * (([65] : Str).length : ℚ))
        / (eng i * (([65] : Str).length : ℚ)) :=
  C1_chiForShift_formula [65] 0 (by decide) (by decide) (by decide)

/-! ### C6: bestShift minimizes the rounded profile -/

lemma round3_not_lt (x c : ℚ) (hcx : c ≤ x) (hc : (20921 : ℚ) ≤ c * 1000 + 1 / 2) :
    ¬ round3 x < 20921 / 1000 := by
  rw [not_lt]
  unfold round3
  have h2 : (20921 : ℤ) ≤ ⌊x * 1000 + 1 / 2⌋ := Int.le_floor.mpr (by push_cast; linarith)
  have h3 : (20921 : ℚ) ≤ (⌊x * 1000 + 1 / 2⌋ : ℚ) := by exact_mod_cast h2
  linarith

lemma foldl_pick_const : ∀ (l : List (ℕ × ℚ)) (b : ℕ × ℚ), (∀ x ∈ l, ¬ x.2 < b.2) →
    l.foldl (fun best d => if d.2 < best.2 then d else best) b = b := by
  intro l
  induction l with
  | nil => intro b _; rfl
  | cons x xs ih =>
    intro b h
    rw [List.foldl_cons, if_neg (h x (List.mem_cons_self x xs))]
    exact ih b fun y hy => h y (List.mem_cons_of_mem x hy)

lemma aannoo_hist_0 : histo (chiShiftIdx 0) [65, 65, 78, 78, 79, 79]
    = [2, 0, 0, 0, 0, 0, 0, 0, 0, 0, 0, 0, 0, 2, 2, 0, 0, 0, 0, 0, 0, 0, 0, 0, 0, 0] := by decide

lemma aannoo_hist_1 : histo (chiShiftIdx 1) [65, 65, 78, 78, 79, 79]
    = [0, 0, 0, 0, 0, 0, 0, 0, 0, 0, 0, 0, 2, 2, 0, 0, 0, 0, 0, 0, 0, 0, 0, 0, 0, 2] := by decide

lemma aannoo_hist_2 : histo (chiShiftIdx 2) [65, 65, 78, 78, 79, 79]
    = [0, 0, 0, 0, 0, 0, 0, 0, 0, 0, 0, 2, 2, 0, 0, 0, 0, 0, 0, 0, 0, 0, 0, 0, 2, 0] := by decide

lemma aannoo_hist_3 : histo (chiShiftIdx 3) [65, 65, 78, 78, 79, 79]
    = [0, 0, 0, 0, 0, 0, 0, 0, 0, 0, 2, 2, 0, 0, 0, 0, 0, 0, 0, 0, 0, 0, 0, 2, 0, 0] := by decide

lemma aannoo_hist_4 : histo (chiShiftIdx 4) [65, 65, 78, 78, 79, 79]
    = [0, 0, 0, 0, 0, 0, 0, 0, 0, 2, 2, 0, 0, 0, 0, 0, 0, 0, 0, 0, 0, 0, 2, 0, 0, 0] := by decide

lemma aannoo_hist_5 : histo (chiShiftIdx 5) [65, 65, 78, 78, 79, 79]
    = [0, 0, 0, 0, 0, 0, 0, 0, 2, 2, 0, 0, 0, 0, 0, 0, 0, 0, 0, 0, 0, 2, 0, 0, 0, 0] := by decide

lemma aannoo_hist_6 : histo (chiShiftIdx 6) [65, 65, 78, 78, 79, 79]
    = [0, 0, 0, 0, 0, 0, 0, 2, 2, 0, 0, 0, 0, 0, 0, 0, 0, 0, 0, 0, 2, 0, 0, 0, 0, 0] := by decide

lemma aannoo_hist_7 : histo (chiShiftIdx 7) [65, 65, 78, 78, 79, 79]
    = [0, 0, 0, 0, 0, 0, 2, 2, 0, 0, 0, 0, 0, 0, 0, 0, 0, 0, 0, 2, 0, 0, 0, 0, 0, 0] := by decide

lemma aannoo_hist_8 : histo (chiShiftIdx 8) [65, 65, 78, 78, 79, 79]
    = [0, 0, 0, 0, 0, 2, 2, 0, 0, 0, 0, 0, 0, 0, 0, 0, 0, 0, 2, 0, 0, 0, 0, 0, 0, 0] := by decide

lemma aannoo_hist_9 : histo (chiShiftIdx 9) [65, 65, 78, 78, 79, 79]
    = [0, 0, 0, 0, 2, 2, 0, 0, 0, 0, 0, 0, 0, 0, 0, 0, 0, 2, 0, 0, 0, 0, 0, 0, 0, 0] := by decide

lemma aannoo_hist_10 : histo (chiShiftIdx 10) [65, 65, 78, 78, 79, 79]
    = [0, 0, 0, 2, 2, 0, 0, 0, 0, 0, 0, 0, 0, 0, 0, 0, 2, 0, 0, 0, 0, 0, 0, 0, 0, 0] := by decide

lemma aannoo_hist_11 : histo (chiShiftIdx 11) [65, 65, 78, 78, 79, 79]
    = [0, 0, 2, 2, 0, 0, 0, 0, 0, 0, 0, 0, 0, 0, 0, 2, 0, 0, 0, 0, 0, 0, 0, 0, 0, 0] := by decide

lemma aannoo_hist_12 : histo (chiShiftIdx 12) [65, 65, 78, 78, 79, 79]
    = [0, 2, 2, 0, 0, 0, 0, 0, 0, 0, 0, 0, 0, 0, 2, 0, 0, 0, 0, 0, 0, 0, 0, 0, 0, 0] := by decide

lemma aannoo_hist_13 : histo (chiShiftIdx 13) [65, 65, 78, 78, 79, 79]
    = [2, 2, 0, 0, 0, 0, 0, 0, 0, 0, 0, 0, 0, 2, 0, 0, 0, 0, 0, 0, 0, 0, 0, 0, 0, 0] := by decide

lemma aannoo_hist_14 : histo (chiShiftIdx 14) [65, 65, 78, 78, 79, 79]
    = [2, 0, 0, 0, 0, 0, 0, 0, 0, 0, 0, 0, 2, 0, 0, 0, 0, 0, 0, 0, 0, 0, 0, 0, 0, 2] := by decide

lemma aannoo_hist_15 : histo (chiShiftIdx 15) [65, 65, 78, 78, 79, 79]
    = [0, 0, 0, 0, 0, 0, 0, 0, 0, 0, 0, 2, 0, 0, 0, 0, 0, 0, 0, 0, 0, 0, 0, 0, 2, 2] := by decide

lemma aannoo_hist_16 : histo (chiShiftIdx 16) [65, 65, 78, 78, 79, 79]
    = [0, 0, 0, 0, 0, 0, 0, 0, 0, 0, 2, 0, 0, 0, 0, 0, 0, 0, 0, 0, 0, 0, 0, 2, 2, 0] := by decide

lemma aannoo_hist_17 : histo (chiShiftIdx 17) [65, 65, 78, 78, 79, 79]
    = [0, 0, 0, 0, 0, 0, 0, 0, 0, 2, 0, 0, 0, 0, 0, 0, 0, 0, 0, 0, 0, 0, 2, 2, 0, 0] := by decide

lemma aannoo_hist_18 : histo (chiShiftIdx 18) [65, 65, 78, 78, 79, 79]
    = [0, 0, 0, 0, 0, 0, 0, 0, 2, 0, 0, 0, 0, 0, 0, 0, 0, 0, 0, 0, 0, 2, 2, 0, 0, 0] := by decide

lemma aannoo_hist_19 : histo (chiShiftIdx 19) [65, 65, 78, 78, 79, 79]
    = [0, 0, 0, 0, 0, 0, 0, 2, 0, 0, 0, 0, 0, 0, 0, 0, 0, 0, 0, 0, 2, 2, 0, 0, 0, 0] := by decide

lemma aannoo_hist_20 : histo (chiShiftIdx 20) [65, 65, 78, 78, 79, 79]
    = [0, 0, 0, 0, 0, 0, 2, 0, 0, 0, 0, 0, 0, 0, 0, 0, 0, 0, 0, 2, 2, 0, 0, 0, 0, 0] := by decide

lemma aannoo_hist_21 : histo (chiShiftIdx 21) [65, 65, 78, 78, 79, 79]
    = [0, 0, 0, 0, 0, 2, 0, 0, 0, 0, 0, 0, 0, 0, 0, 0, 0, 0, 2, 2, 0, 0, 0, 0, 0, 0] := by decide

lemma aannoo_hist_22 : histo (chiShiftIdx 22) [65, 65, 78, 78, 79, 79]
    = [0, 0, 0, 0, 2, 0, 0, 0, 0, 0, 0, 0, 0, 0, 0, 0, 0, 2, 2, 0, 0, 0, 0, 0, 0, 0] := by decide

lemma aannoo_hist_23 : histo (chiShiftIdx 23) [65, 65, 78, 78, 79, 79]
    = [0, 0, 0, 2, 0, 0, 0, 0, 0, 0, 0, 0, 0, 0, 0, 0, 2, 2, 0, 0, 0, 0, 0, 0, 0, 0] := by decide

lemma aannoo_hist_24 : histo (chiShiftIdx 24) [65, 65, 78, 78, 79, 79]
    = [0, 0, 2, 0, 0, 0, 0, 0, 0, 0, 0, 0, 0, 0, 0, 2, 2, 0, 0, 0, 0, 0, 0, 0, 0, 0] := by decide

lemma aannoo_hist_25 : histo (chiShiftIdx 25) [65, 65, 78, 78, 79, 79]
    = [0, 2, 0, 0, 0, 0, 0, 0, 0, 0, 0, 0, 0, 0, 2, 2, 0, 0, 0, 0, 0, 0, 0, 0, 0, 0] := by decide

lemma aannoo_chi_0 : chiForShift [65, 65, 78, 78, 79, 79] 0
    = 1298530165516495271 / 62066843412150000 := by
  rw [chiForShift_eq_sum [65, 65, 78, 78, 79, 79] 0 (by decide), aannoo_hist_0]
  simp only [Finset.sum_range_succ, Finset.sum_range_zero, eng, ENG,
    List.length_cons, List.length_nil]
  norm_num

lemma aannoo_chi_22 : chiForShift [65, 65, 78, 78, 79, 79] 22
    = 251647287507442303 / 12028714294950000 := by
  rw [chiForShift_eq_sum [65, 65, 78, 78, 79, 79] 22 (by decide), aannoo_hist_22]
  simp only [Finset.sum_range_succ, Finset.sum_range_zero, eng, ENG,
    List.length_cons, List.length_nil]
  norm_num

lemma aannoo_round_0 : round3 (chiForShift [65, 65, 78, 78, 79, 79] 0) = 20921 / 1000 := by
  rw [aannoo_chi_0, round3_eq _ 20921 (by norm_num) (by norm_num)]
  norm_num

lemma aannoo_ge_1 : ¬ round3 (chiForShift [65, 65, 78, 78, 79, 79] 1) < 20921 / 1000 := by
  have hterm := chi_term_le [65, 65, 78, 78, 79, 79] 1 25 (by decide) (by norm_num)
  rw [aannoo_hist_1] at hterm
  simp only [eng, ENG, List.length_cons, List.length_nil] at hterm
  norm_num at hterm
  exact round3_not_lt _ _ hterm (by norm_num)

lemma aannoo_ge_2 : ¬ round3 (chiForShift [65, 65, 78, 78, 79, 79] 2) < 20921 / 1000 := by
  have hterm := chi_term_le [65, 65, 78, 78, 79, 79] 2 24 (by decide) (by norm_num)
  rw [aannoo_hist_2] at hterm
  simp only [eng, ENG, List.length_cons, List.length_nil] at hterm
  norm_num at hterm
  exact round3_not_lt _ _ hterm (by norm_num)

lemma aannoo_ge_3 : ¬ round3 (chiForShift [65, 65, 78, 78, 79, 79] 3) < 20921 / 1000 := by
  have hterm := chi_term_le [65, 65, 78, 78, 79, 79] 3 23 (by decide) (by norm_num)
  rw [aannoo_hist_3] at hterm
  simp only [eng, ENG, List.length_cons, List.length_nil] at hterm
  norm_num at hterm
  exact round3_not_lt _ _ hterm (by norm_num)

lemma aannoo_ge_4 : ¬ round3 (chiForShift [65, 65, 78, 78, 79, 79] 4) < 20921 / 1000 := by
  have hterm := chi_term_le [65, 65, 78, 78, 79, 79] 4 9 (by decide) (by norm_num)
  rw [aannoo_hist_4] at hterm
  simp only [eng, ENG, List.length_cons, List.length_nil] at hterm
  norm_num at hterm
  exact round3_not_lt _ _ hterm (by norm_num)

lemma aannoo_ge_5 : ¬ round3 (chiForShift [65, 65, 78, 78, 79, 79] 5) < 20921 / 1000 := by
  have hterm := chi_term_le [65, 65, 78, 78, 79, 79] 5 9 (by decide) (by norm_num)
  rw [aannoo_hist_5] at hterm
  simp only [eng, ENG, List.length_cons, List.length_nil] at hterm
  norm_num at hterm
  exact round3_not_lt _ _ hterm (by norm_num)

lemma aannoo_ge_7 : ¬ round3 (chiForShift [65, 65, 78, 78, 79, 79] 7) < 20921 / 1000 := by
  have hterm := chi_term_le [65, 65, 78, 78, 79, 79] 7 6 (by decide) (by norm_num)
  rw [aannoo_hist_7] at hterm
  simp only [eng, ENG, List.length_cons, List.length_nil] at hterm
  norm_num at hterm
  exact round3_not_lt _ _ hterm (by norm_num)

lemma aannoo_ge_8 : ¬ round3 (chiForShift [65, 65, 78, 78, 79, 79] 8) < 20921 / 1000 := by
  have hterm := chi_term_le [65, 65, 78, 78, 79, 79] 8 6 (by decide) (by norm_num)
  rw [aannoo_hist_8] at hterm
  simp only [eng, ENG, List.length_cons, List.length_nil] at hterm
  norm_num at hterm
  exact round3_not_lt _ _ hterm (by norm_num)

lemma aannoo_ge_9 : ¬ round3 (chiForShift [65, 65, 78, 78, 79, 79] 9) < 20921 / 1000 := by
  have hterm := chi_term_le [65, 65, 78, 78, 79, 79] 9 5 (by decide) (by norm_num)
  rw [aannoo_hist_9] at hterm
  simp only [eng, ENG, List.length_cons, List.length_nil] at hterm
  norm_num at hterm
  exact round3_not_lt _ _ hterm (by norm_num)

lemma aannoo_ge_10 : ¬ round3 (chiForShift [65, 65, 78, 78, 79, 79] 10) < 20921 / 1000 := by
  have hterm := chi_term_le [65, 65, 78, 78, 79, 79] 10 16 (by decide) (by norm_num)
  rw [aannoo_hist_10] at hterm
  simp only [eng, ENG, List.length_cons, List.length_nil] at hterm
  norm_num at hterm
  exact round3_not_lt _ _ hterm (by norm_num)

lemma aannoo_ge_11 : ¬ round3 (chiForShift [65, 65, 78, 78, 79, 79] 11) < 20921 / 1000 := by
  have hterm := chi_term_le [65, 65, 78, 78, 79, 79] 11 15 (by decide) (by norm_num)
  rw [aannoo_hist_11] at hterm
  simp only [eng, ENG, List.length_cons, List.length_nil] at hterm
  norm_num at hterm
  exact round3_not_lt _ _ hterm (by norm_num)

lemma aannoo_ge_12 : ¬ round3 (chiForShift [65, 65, 78, 78, 79, 79] 12) < 20921 / 1000 := by
  have hterm := chi_term_le [65, 65, 78, 78, 79, 79] 12 1 (by decide) (by norm_num)
  rw [aannoo_hist_12] at hterm
  simp only [eng, ENG, List.length_cons, List.length_nil] at hterm
  norm_num at hterm
  exact round3_not_lt _ _ hterm (by norm_num)

lemma aannoo_ge_13 : ¬ round3 (chiForShift [65, 65, 78, 78, 79, 79] 13) < 20921 / 1000 := by
  have hterm := chi_term_le [65, 65, 78, 78, 79, 79] 13 1 (by decide) (by norm_num)
  rw [aannoo_hist_13] at hterm
  simp only [eng, ENG, List.length_cons, List.length_nil] at hterm
  norm_num at hterm
  exact round3_not_lt _ _ hterm (by norm_num)

lemma aannoo_ge_14 : ¬ round3 (chiForShift [65, 65, 78, 78, 79, 79] 14) < 20921 / 1000 := by
  have hterm := chi_term_le [65, 65, 78, 78, 79, 79] 14 25 (by decide) (by norm_num)
  rw [aannoo_hist_14] at hterm
  simp only [eng, ENG, List.length_cons, List.length_nil] at hterm
  norm_num at hterm
  exact round3_not_lt _ _ hterm (by norm_num)

lemma aannoo_ge_15 : ¬ round3 (chiForShift [65, 65, 78, 78, 79, 79] 15) < 20921 / 1000 := by
  have hterm := chi_term_le [65, 65, 78, 78, 79, 79] 15 25 (by decide) (by norm_num)
  rw [aannoo_hist_15] at hterm
  simp only [eng, ENG, List.length_cons, List.length_nil] at hterm
  norm_num at hterm
  exact round3_not_lt _ _ hterm (by norm_num)

lemma aannoo_ge_16 : ¬ round3 (chiForShift [65, 65, 78, 78, 79, 79] 16) < 20921 / 1000 := by
  have hterm := chi_term_le [65, 65, 78, 78, 79, 79] 16 23 (by decide) (by norm_num)
  rw [aannoo_hist_16] at hterm
  simp only [eng, ENG, List.length_cons, List.length_nil] at hterm
  norm_num at hterm
  exact round3_not_lt _ _ hterm (by norm_num)

lemma aannoo_ge_17 : ¬ round3 (chiForShift [65, 65, 78, 78, 79, 79] 17) < 20921 / 1000 := by
  have hterm := chi_term_le [65, 65, 78, 78, 79, 79] 17 23 (by decide) (by norm_num)
  rw [aannoo_hist_17] at hterm
  simp only [eng, ENG, List.length_cons, List.length_nil] at hterm
  norm_num at hterm
  exact round3_not_lt _ _ hterm (by norm_num)

lemma aannoo_ge_18 : ¬ round3 (chiForShift [65, 65, 78, 78, 79, 79] 18) < 20921 / 1000 := by
  have hterm := chi_term_le [65, 65, 78, 78, 79, 79] 18 21 (by decide) (by norm_num)
  rw [aannoo_hist_18] at hterm
  simp only [eng, ENG, List.length_cons, List.length_nil] at hterm
  norm_num at hterm
  exact round3_not_lt _ _ hterm (by norm_num)

lemma aannoo_ge_19 : ¬ round3 (chiForShift [65, 65, 78, 78, 79, 79] 19) < 20921 / 1000 := by
  have hterm := chi_term_le [65, 65, 78, 78, 79, 79] 19 21 (by decide) (by norm_num)
  rw [aannoo_hist_19] at hterm
  simp only [eng, ENG, List.length_cons, List.length_nil] at hterm
  norm_num at hterm
  exact round3_not_lt _ _ hterm (by norm_num)

lemma aannoo_ge_20 : ¬ round3 (chiForShift [65, 65, 78, 78, 79, 79] 20) < 20921 / 1000 := by
  have hterm := chi_term_le [65, 65, 78, 78, 79, 79] 20 6 (by decide) (by norm_num)
  rw [aannoo_hist_20] at hterm
  simp only [eng, ENG, List.length_cons, List.length_nil] at hterm
  norm_num at hterm
  exact round3_not_lt _ _ hterm (by norm_num)

lemma aannoo_ge_21 : ¬ round3 (chiForShift [65, 65, 78, 78, 79, 79] 21) < 20921 / 1000 := by
  have hterm := chi_term_le [65, 65, 78, 78, 79, 79] 21 5 (by decide) (by norm_num)
  rw [aannoo_hist_21] at hterm
  simp only [eng, ENG, List.length_cons, List.length_nil] at hterm
  norm_num at hterm
  exact round3_not_lt _ _ hterm (by norm_num)

lemma aannoo_ge_23 : ¬ round3 (chiForShift [65, 65, 78, 78, 79, 79] 23) < 20921 / 1000 := by
  have hterm := chi_term_le [65, 65, 78, 78, 79, 79] 23 16 (by decide) (by norm_num)
  rw [aannoo_hist_23] at hterm
  simp only [eng, ENG, List.length_cons, List.length_nil] at hterm
  norm_num at hterm
  exact round3_not_lt _ _ hterm (by norm_num)

lemma aannoo_ge_24 : ¬ round3 (chiForShift [65, 65, 78, 78, 79, 79] 24) < 20921 / 1000 := by
  have hterm := chi_term_le [65, 65, 78, 78, 79, 79] 24 16 (by decide) (by norm_num)
  rw [aannoo_hist_24] at hterm
  simp only [eng, ENG, List.length_cons, List.length_nil] at hterm
  norm_num at hterm
  exact round3_not_lt _ _ hterm (by norm_num)

lemma aannoo_ge_25 : ¬ round3 (chiForShift [65, 65, 78, 78, 79, 79] 25) < 20921 / 1000 := by
  have hterm := chi_term_le [65, 65, 78, 78, 79, 79] 25 1 (by decide) (by norm_num)
  rw [aannoo_hist_25] at hterm
  simp only [eng, ENG, List.length_cons, List.length_nil] at hterm
  norm_num at hterm
  exact round3_not_lt _ _ hterm (by norm_num)

lemma aannoo_ge_6 : ¬ round3 (chiForShift [65, 65, 78, 78, 79, 79] 6) < 20921 / 1000 := by
  have hterm := chi_pair_le [65, 65, 78, 78, 79, 79] 6 7 20 (by decide) (by norm_num) (by norm_num) (by norm_num)
  rw [aannoo_hist_6] at hterm
  simp only [eng, ENG, List.length_cons, List.length_nil] at hterm
  norm_num at hterm
  exact round3_not_lt _ _ hterm (by norm_num)

lemma aannoo_ge_22 : ¬ round3 (chiForShift [65, 65, 78, 78, 79, 79] 22) < 20921 / 1000 := by
  have h := aannoo_chi_22
  exact round3_not_lt _ _ (le_of_eq h.symm) (by norm_num)

/-- **C6 counterexample**: on the column `"AANNOO"` the code returns
`bestShift = 0`, because shifts 0 and 22 both display as chi `20.921` and the
reduce keeps the first, yet the raw chi-square at 22 is strictly smaller than
at 0 — so `bestShift` is not the argmin of `chiForShift`. -/
theorem C6_counterexample :
    bestShift [65, 65, 78, 78, 79, 79] = 0
    ∧ chiForShift [65, 65, 78, 78, 79, 79] 22 < chiForShift [65, 65, 78, 78, 79, 79] 0 := by
  constructor
  · unfold bestShift chiData
    have hinit : ((List.range 26).map
          (fun s => (s, round3 (chiForShift [65, 65, 78, 78, 79, 79] s)))).headD
          ((0 : ℕ), (10 : ℚ) ^ 9)
        = (0, round3 (chiForShift [65, 65, 78, 78, 79, 79] 0)) := by
      rw [show List.range 26
          = 0 :: [1, 2, 3, 4, 5, 6, 7, 8, 9, 10, 11, 12, 13, 14, 15, 16, 17, 18,
            19, 20, 21, 22, 23, 24, 25] from by decide]
      rfl
    have hall : ∀ x ∈ (List.range 26).map
        (fun s => (s, round3 (chiForShift [65, 65, 78, 78, 79, 79] s))),
        ¬ x.2 < (((0 : ℕ), round3 (chiForShift [65, 65, 78, 78, 79, 79] 0))).2 := by
      rw [aannoo_round_0]
      intro x hx
      obtain ⟨s, hs, rfl⟩ := List.mem_map.mp hx
      have hs26 : s < 26 := List.mem_range.mp hs
      interval_cases s
      exacts [by rw [aannoo_round_0]; norm_num, aannoo_ge_1, aannoo_ge_2, aannoo_ge_3,
        aannoo_ge_4, aannoo_ge_5, aannoo_ge_6, aannoo_ge_7, aannoo_ge_8, aannoo_ge_9,
        aannoo_ge_10, aannoo_ge_11, aannoo_ge_12, aannoo_ge_13, aannoo_ge_14,
        aannoo_ge_15, aannoo_ge_16, aannoo_ge_17, aannoo_ge_18, aannoo_ge_19,
        aannoo_ge_20, aannoo_ge_21, aannoo_ge_22, aannoo_ge_23, aannoo_ge_24,
        aannoo_ge_25]
    rw [hinit, foldl_pick_const _ _ hall]
  · rw [aannoo_chi_22, aannoo_chi_0]
    norm_num

lemma pick_fold_spec (g : ℕ → ℚ) : ∀ m, 1 ≤ m →
    ∃ j q, ((List.range m).map (fun s => (s, g s))).foldl
        (fun best d => if d.2 < best.2 then d else best) (0, g 0) = (j, q)
      ∧ j < m ∧ q = g j ∧ (∀ s, s < m → q ≤ g s) ∧ (∀ s, s < j → q < g s) := by
  intro m
  induction m with
  | zero => intro h; exact absurd h (by omega)
  | succ m ih =>
    intro _
    by_cases hm : 1 ≤ m
    · obtain ⟨j, q, heq, hj, hq, hmin, hfirst⟩ := ih hm
      rw [List.range_succ, List.map_append, List.foldl_append, heq]
      simp only [List.map_cons, List.map_nil, List.foldl_cons, List.foldl_nil]
      dsimp only
      by_cases hlt : g m < q
      · rw [if_pos hlt]
        refine ⟨m, g m, rfl, by omega, rfl, ?_, ?_⟩
        · intro s hs
          rcases Nat.lt_succ_iff_lt_or_eq.mp hs with h | h
          · exact le_trans hlt.le (hmin s h)
          · subst h; exact le_refl _
        · intro s hs
          exact lt_of_lt_of_le hlt (hmin s hs)
      · rw [if_neg hlt]
        refine ⟨j, q, rfl, by omega, hq, ?_, hfirst⟩
        intro s hs
        rcases Nat.lt_succ_iff_lt_or_eq.mp hs with h | h
        · exact hmin s h
        · subst h; exact not_lt.mp hlt
    · have hm0 : m = 0 := by omega
      subst hm0
      refine ⟨0, g 0, ?_, by omega, rfl, ?_, fun s hs => absurd hs (by omega)⟩
      · rw [show List.range 1 = [0] from by decide]
        simp
      · intro s hs
        have hs0 : s = 0 := by omega
        subst hs0
        exact le_refl _

/-- **C6 (amended)**: `bestShift` is the argmin over shifts 0..25 of the chi
values rounded to 3 decimal places (the displayed profile values), ties broken
by the smallest shift — not of the raw `chiForShift` values. -/
theorem C6_bestShift_rounded_argmin (col : Str) :
    bestShift col < 26
    ∧ ∀ s, s < 26 →
        round3 (chiForShift col (bestShift col)) ≤ round3 (chiForShift col s)
        ∧ (round3 (chiForShift col s) = round3 (chiForShift col (bestShift col))
            → bestShift col ≤ s) := by
  obtain ⟨j, q, heq, hj, hq, hmin, hfirst⟩ :=
    pick_fold_spec (fun s => round3 (chiForShift col s)) 26 (by omega)
  have hbs : bestShift col = j := by
    unfold bestShift chiData
    have hinit : ((List.range 26).map (fun s => (s, round3 (chiForShift col s)))).headD
        ((0 : ℕ), (10 : ℚ) ^ 9) = (0, round3 (chiForShift col 0)) := by
      rw [show List.range 26
          = 0 :: [1, 2, 3, 4, 5, 6, 7, 8, 9, 10, 11, 12, 13, 14, 15, 16, 17, 18,
            19, 20, 21, 22, 23, 24, 25] from by decide]
      rfl
    rw [hinit, heq]
  rw [hbs]
  refine ⟨hj, fun s hs => ⟨?_, ?_⟩⟩
  · rw [← hq]
    exact hmin s hs
  · intro htie
    by_contra hcon
    have hsj : s < j := by omega
    have := hfirst s hsj
    rw [htie, ← hq] at this
    exact lt_irrefl _ this

/-- Witness for C6 (amended) at the column `"A"` and shift 3. -/
theorem C6_bestShift_rounded_argmin_witness :
    bestShift [65] < 26
    ∧ (round3 (chiForShift [65] (bestShift [65])) ≤ round3 (chiForShift [65] 3)
        ∧ (round3 (chiForShift [65] 3) = round3 (chiForShift [65] (bestShift [65]))
            → bestShift [65] ≤ 3)) :=
  ⟨(C6_bestShift_rounded_argmin [65]).1, (C6_bestShift_rounded_argmin [65]).2 3 (by norm_num)⟩

/-! ### C2, C9, C10: the decoder -/

/-- The claim's encryption: each letter shifted forward by its column's shift
(column = count of letters seen so far mod `k`), emitted uppercase;
non-letters kept verbatim. -/
def encodeAux (ks : List ℕ) (k : ℕ) : Str → ℕ → Str
  | [], _ => []
  | ch :: rest, j =>
    if isLetterCode ch then
      ((upperCode ch - 65 + ks.getD (j % k) 0) % 26 + 65) :: encodeAux ks k rest (j + 1)
    else ch :: encodeAux ks k rest j

/-- Vigenère encryption of a plaintext under a fully determined per-column
shift sequence, as the round-trip claim describes it. -/
def encodeVigenere (pt : Str) (ks : List ℕ) (k : ℕ) : Str := encodeAux ks k pt 0

/-- The output the claim describes for a partially determined key: a letter
whose column slot is undetermined (or missing) becomes the placeholder, any
other letter decodes back to the uppercased original, non-letters pass
through. -/
def expectedDecodeAux (ks2 : List (Option ℤ)) (k : ℕ) : Str → ℕ → Str
  | [], _ => []
  | ch :: rest, j =>
    if isLetterCode ch then
      (match ks2.get? (j % k) with
        | some (some _) => upperCode ch
        | _ => placeholder) :: expectedDecodeAux ks2 k rest (j + 1)
    else ch :: expectedDecodeAux ks2 k rest j

lemma upperCode_letter (c : ℕ) (hc : isLetterCode c = true) :
    65 ≤ upperCode c ∧ upperCode c ≤ 90 := by
  simp only [isLetterCode, Bool.or_eq_true, Bool.and_eq_true, decide_eq_true_eq] at hc
  unfold upperCode
  split <;> omega

lemma decChar_enc (u s : ℕ) (hu1 : 65 ≤ u) (hu2 : u ≤ 90) (hs : s < 26) :
    decChar ((u - 65 + s) % 26 + 65) (s : ℤ) = u := by
  have he2 : (u - 65 + s) % 26 < 26 := Nat.mod_lt _ (by omega)
  unfold decChar upperCode
  rw [if_neg (by omega)]
  rw [Int.tmod_eq_emod (by push_cast; omega) (by omega)]
  omega

lemma decode_encode_aux (ks : List ℕ) (ks2 : List (Option ℤ)) (k : ℕ)
    (hk : 1 ≤ k) (hlen : ks.length = k) (hks : ∀ s ∈ ks, s < 26)
    (hagree : ∀ i, i < k →
      ks2.get? i = some none ∨ ks2.get? i = some (some (ks.getD i 0 : ℤ))) :
    ∀ (pt : Str) (j : ℕ),
      decodeAux ks2 k (encodeAux ks k pt j) j = expectedDecodeAux ks2 k pt j := by
  intro pt
  induction pt with
  | nil => intro j; rfl
  | cons ch rest ih =>
    intro j
    by_cases hch : isLetterCode ch
    · have hjk : j % k < k := Nat.mod_lt _ (by omega)
      have hs0 : ks.getD (j % k) 0 < 26 := by
        apply hks
        rw [List.getD_eq_getElem _ _ (by omega)]
        exact List.getElem_mem _
      have hu := upperCode_letter ch hch
      have henc : 65 ≤ (upperCode ch - 65 + ks.getD (j % k) 0) % 26 + 65
          ∧ (upperCode ch - 65 + ks.getD (j % k) 0) % 26 + 65 ≤ 90 := by
        have := Nat.mod_lt (upperCode ch - 65 + ks.getD (j % k) 0) (y := 26) (by omega)
        omega
      have hletter : isLetterCode ((upperCode ch - 65 + ks.getD (j % k) 0) % 26 + 65)
          = true := by
        simp only [isLetterCode, Bool.or_eq_true, Bool.and_eq_true, decide_eq_true_eq]
        omega
      rw [encodeAux, if_pos hch, decodeAux, if_pos hletter, expectedDecodeAux, if_pos hch]
      rcases hagree (j % k) hjk with hslot | hslot <;> rw [hslot] <;> dsimp only
      · rw [ih (j + 1)]
      · rw [decChar_enc (upperCode ch) (ks.getD (j % k) 0) hu.1 hu.2 hs0, ih (j + 1)]
    · rw [encodeAux, if_neg hch, decodeAux, if_neg hch, expectedDecodeAux, if_neg hch,
        ih j]

lemma expectedDecodeAux_all_some (ks2 : List (Option ℤ)) (k : ℕ) (hk : 1 ≤ k)
    (hall : ∀ i, i < k → ∃ s, ks2.get? i = some (some s)) :
    ∀ (pt : Str) (j : ℕ), expectedDecodeAux ks2 k pt j
      = pt.map (fun ch => if isLetterCode ch then upperCode ch else ch) := by
  intro pt
  induction pt with
  | nil => intro j; rfl
  | cons ch rest ih =>
    intro j
    by_cases hch : isLetterCode ch
    · obtain ⟨s, hs⟩ := hall (j % k) (Nat.mod_lt _ (by omega))
      rw [expectedDecodeAux, if_pos hch, hs, List.map_cons, if_pos hch, ih (j + 1)]
    · rw [expectedDecodeAux, if_neg hch, List.map_cons, if_neg hch, ih j]

/-- **C2**: encoding a plaintext per column with a fully determined key of
length `k ≥ 1` and decoding with the same key recovers every letter
uppercased and leaves non-letters unchanged; blanking exactly one slot `u`
instead turns every letter of column `u` into the placeholder while all other
characters decode as before. -/
theorem C2_roundTrip (pt : Str) (ks : List ℕ) (k : ℕ) (hk : 1 ≤ k)
    (hlen : ks.length = k) (hks : ∀ s ∈ ks, s < 26) :
    decodePartial (encodeVigenere pt ks k) (ks.map (fun (s : ℕ) => some (s : ℤ))) k
      = pt.map (fun ch => if isLetterCode ch then upperCode ch else ch)
    ∧ ∀ u, u < k →
      decodePartial (encodeVigenere pt ks k) ((ks.map (fun (s : ℕ) => some (s : ℤ))).set u none) k
        = expectedDecodeAux ((ks.map (fun (s : ℕ) => some (s : ℤ))).set u none) k pt 0 := by
  have hmaplen : (ks.map (fun (s : ℕ) => some (s : ℤ))).length = k := by simpa using hlen
  constructor
  · by_cases hpt : encodeVigenere pt ks k = []
    · have hptnil : pt = [] := by
        cases pt with
        | nil => rfl
        | cons c cs =>
          exfalso
          unfold encodeVigenere at hpt
          rw [encodeAux] at hpt
          split at hpt <;> simp at hpt
      subst hptnil
      simp [decodePartial, encodeVigenere, encodeAux]
    · unfold decodePartial
      rw [if_neg (by push_neg; exact ⟨hpt, by omega⟩)]
      unfold encodeVigenere
      rw [decode_encode_aux ks _ k hk hlen hks ?_ pt 0]
      · exact expectedDecodeAux_all_some _ k hk
          (fun i hi => ⟨(ks.getD i 0 : ℤ), by
            rw [List.get?_eq_getElem?, List.getElem?_map,
              List.getElem?_eq_getElem (by omega), List.getD_eq_getElem _ _ (by omega)]
            rfl⟩) pt 0
      · intro i hi
        right
        rw [List.get?_eq_getElem?, List.getElem?_map,
          List.getElem?_eq_getElem (by omega), List.getD_eq_getElem _ _ (by omega)]
        rfl
  · intro u hu
    by_cases hpt : encodeVigenere pt ks k = []
    · have hptnil : pt = [] := by
        cases pt with
        | nil => rfl
        | cons c cs =>
          exfalso
          unfold encodeVigenere at hpt
          rw [encodeAux] at hpt
          split at hpt <;> simp at hpt
      subst hptnil
      simp [decodePartial, encodeVigenere, encodeAux, expectedDecodeAux]
    · unfold decodePartial
      rw [if_neg (by push_neg; exact ⟨hpt, by omega⟩)]
      unfold encodeVigenere
      exact decode_encode_aux ks _ k hk hlen hks (fun i hi => by
        by_cases hiu : i = u
        · subst hiu
          left
          rw [List.get?_eq_getElem?, List.getElem?_set_self (by omega)]
        · right
          rw [List.get?_eq_getElem?, List.getElem?_set_ne (fun h => hiu h.symm),
            List.getElem?_map, List.getElem?_eq_getElem (by omega),
            List.getD_eq_getElem _ _ (by omega)]
          rfl) pt 0

/-- Witness for C2: plaintext `"Attack at dawn!"` under key `JACK` (k = 4),
fully determined and with slot 2 blanked. -/
theorem C2_roundTrip_witness :
    decodePartial
        (encodeVigenere [65, 116, 116, 97, 99, 107, 32, 97, 116, 32, 100, 97, 119, 110, 33]
          [9, 0, 2, 10] 4)
        ([9, 0, 2, 10].map (fun (s : ℕ) => some (s : ℤ))) 4
      = [65, 116, 116, 97, 99, 107, 32, 97, 116, 32, 100, 97, 119, 110, 33].map
          (fun ch => if isLetterCode ch then upperCode ch else ch)
    ∧ decodePartial
        (encodeVigenere [65, 116, 116, 97, 99, 107, 32, 97, 116, 32, 100, 97, 119, 110, 33]
          [9, 0, 2, 10] 4)
        (([9, 0, 2, 10].map (fun (s : ℕ) => some (s : ℤ))).set 2 none) 4
      = expectedDecodeAux (([9, 0, 2, 10].map (fun (s : ℕ) => some (s : ℤ))).set 2 none) 4
          [65, 116, 116, 97, 99, 107, 32, 97, 116, 32, 100, 97, 119, 110, 33] 0 :=
  ⟨(C2_roundTrip _ [9, 0, 2, 10] 4 (by decide) (by decide) (by decide)).1,
   (C2_roundTrip _ [9, 0, 2, 10] 4 (by decide) (by decide) (by decide)).2 2 (by decide)⟩

lemma decodeAux_length (ks : List (Option ℤ)) (k : ℕ) :
    ∀ (s : Str) (j : ℕ), (decodeAux ks k s j).length = s.length := by
  intro s
  induction s with
  | nil => intro j; rfl
  | cons ch rest ih =>
    intro j
    by_cases hch : isLetterCode ch
    · rw [decodeAux, if_pos hch]
      rcases hslot : ks.get? (j % k) with - | os
      · simp [ih]
      · rcases os with - | s0 <;> simp [ih]
    · rw [decodeAux, if_neg hch]
      simp [ih]

/-- **C9**: `decodePartial` is length-preserving — every input character
yields exactly one output character (a decoded letter, the placeholder, or
the character itself). -/
theorem C9_decodePartial_length (original : Str) (keyShifts : List (Option ℤ)) (k : ℕ) :
    (decodePartial original keyShifts k).length = original.length := by
  unfold decodePartial
  split
  · rfl
  · exact decodeAux_length keyShifts k original 0

lemma decodeAux_pad (ks : List (Option ℤ)) (k m : ℕ) :
    ∀ (s : Str) (j : ℕ),
      decodeAux ks k s j = decodeAux (ks ++ List.replicate m none) k s j := by
  intro s
  induction s with
  | nil => intro j; rfl
  | cons ch rest ih =>
    intro j
    by_cases hch : isLetterCode ch
    · rw [decodeAux, if_pos hch, decodeAux, if_pos hch]
      rcases hslot : ks.get? (j % k) with - | os
      · have hlen : ks.length ≤ j % k := by
          by_contra hcon
          rw [List.get?_eq_getElem?, List.getElem?_eq_getElem (by omega)] at hslot
          exact Option.noConfusion hslot
        have hr : (ks ++ List.replicate m none).get? (j % k)
            = if j % k - ks.length < m then some none else none := by
          rw [List.get?_eq_getElem?, List.getElem?_append_right hlen,
            List.getElem?_replicate]
        rw [hr]
        by_cases hm : j % k - ks.length < m
        · rw [if_pos hm]; dsimp only; rw [ih (j + 1)]
        · rw [if_neg hm]; dsimp only; rw [ih (j + 1)]
      · have hlen : j % k < ks.length := by
          by_contra hcon
          rw [List.get?_eq_getElem?, List.getElem?_eq_none (by omega)] at hslot
          exact Option.noConfusion hslot
        have hr : (ks ++ List.replicate m none).get? (j % k) = some os := by
          rw [List.get?_eq_getElem?, List.getElem?_append_left hlen,
            ← List.get?_eq_getElem?, hslot]
        rw [hr]
        rcases os with - | s0 <;> (dsimp only; rw [ih (j + 1)])
    · rw [decodeAux, if_neg hch, decodeAux, if_neg hch, ih j]

lemma decodeAux_nil_key (k : ℕ) :
    ∀ (s : Str) (j : ℕ), decodeAux [] k s j
      = s.map (fun ch => if isLetterCode ch then placeholder else ch) := by
  intro s
  induction s with
  | nil => intro j; rfl
  | cons ch rest ih =>
    intro j
    by_cases hch : isLetterCode ch
    · rw [decodeAux, if_pos hch]
      simp only [List.get?_eq_getElem?, List.getElem?_nil]
      rw [List.map_cons, if_pos hch, ih (j + 1)]
    · rw [decodeAux, if_neg hch, List.map_cons, if_neg hch, ih j]

/-- **C10**: `decodePartial` is total on short key lists: padding the key
list with `none` entries never changes the output (a letter whose column has
no entry behaves exactly like an Undetermined slot), and with an empty key
list every letter becomes the placeholder while non-letters pass through. -/
theorem C10_decodePartial_short_key (original : Str) (keyShifts : List (Option ℤ))
    (k m : ℕ) (hk : 1 ≤ k) :
    decodePartial original keyShifts k
      = decodePartial original (keyShifts ++ List.replicate m none) k
    ∧ decodePartial original [] k
      = original.map (fun ch => if isLetterCode ch then placeholder else ch) := by
  constructor
  · unfold decodePartial
    by_cases ho : original = []
    · simp [ho]
    · rw [if_neg (by push_neg; exact ⟨ho, by omega⟩),
        if_neg (by push_neg; exact ⟨ho, by omega⟩)]
      exact decodeAux_pad keyShifts k m original 0
  · unfold decodePartial
    by_cases ho : original = []
    · simp [ho]
    · rw [if_neg (by push_neg; exact ⟨ho, by omega⟩)]
      exact decodeAux_nil_key k original 0

/-- Witness for C10: `"Hi!"` with a one-entry key at k = 2. -/
theorem C10_decodePartial_short_key_witness :
    decodePartial [72, 105, 33] [some 3] 2
      = decodePartial [72, 105, 33] ([some 3] ++ List.replicate 2 none) 2
    ∧ decodePartial [72, 105, 33] [] 2
      = [72, 105, 33].map (fun ch => if isLetterCode ch then placeholder else ch) :=
  C10_decodePartial_short_key [72, 105, 33] [some 3] 2 2 (by decide)

/-! ### Stable sort lemmas (shared by `workingK` and `findRepeats`) -/

lemma insDesc_mem {α β : Type} [LinearOrder β] (score : α → β) (x : α) :
    ∀ (l : List α) (z : α), z ∈ insDesc score x l ↔ z = x ∨ z ∈ l := by
  intro l
  induction l with
  | nil => intro z; simp [insDesc]
  | cons y ys ih =>
    intro z
    rw [insDesc]
    by_cases h : score x ≤ score y
    · rw [if_pos h]
      simp only [List.mem_cons, ih]
      tauto
    · rw [if_neg h]
      simp only [List.mem_cons]

lemma insDesc_pairwise {α β : Type} [LinearOrder β] (score : α → β) (R : α → α → Prop)
    (x : α) : ∀ (acc : List α),
    acc.Pairwise (fun a b => score b < score a ∨ (score a = score b ∧ R a b)) →
    (∀ y ∈ acc, R y x) →
    (insDesc score x acc).Pairwise
      (fun a b => score b < score a ∨ (score a = score b ∧ R a b)) := by
  intro acc
  induction acc with
  | nil => intro _ _; simp [insDesc]
  | cons y ys ih =>
    intro hp hr
    rcases List.pairwise_cons.mp hp with ⟨hy_ys, hys⟩
    rw [insDesc]
    by_cases hxy : score x ≤ score y
    · rw [if_pos hxy]
      refine List.pairwise_cons.mpr ⟨?_,
        ih hys (fun z hz => hr z (List.mem_cons_of_mem _ hz))⟩
      intro z hz
      rcases (insDesc_mem score x ys z).mp hz with rfl | hz'
      · rcases lt_or_eq_of_le hxy with h | h
        · exact Or.inl h
        · exact Or.inr ⟨h.symm, hr y (List.mem_cons_self _ _)⟩
      · exact hy_ys z hz'
    · rw [if_neg hxy]
      push_neg at hxy
      refine List.pairwise_cons.mpr ⟨?_, hp⟩
      intro z hz
      rcases List.mem_cons.mp hz with rfl | hz'
      · exact Or.inl hxy
      · rcases hy_ys z hz' with h | h
        · exact Or.inl (h.trans hxy)
        · rw [h.1] at hxy
          exact Or.inl hxy

lemma jsSortDesc_go_mem {α β : Type} [LinearOrder β] (score : α → β) :
    ∀ (l acc : List α) (z : α),
      z ∈ l.foldl (fun acc x => insDesc score x acc) acc ↔ z ∈ acc ∨ z ∈ l := by
  intro l
  induction l with
  | nil => intro acc z; simp
  | cons x xs ih =>
    intro acc z
    rw [List.foldl_cons, ih, insDesc_mem score x acc z, List.mem_cons]
    tauto

lemma jsSortDesc_mem {α β : Type} [LinearOrder β] (score : α → β) (l : List α) (z : α) :
    z ∈ jsSortDesc score l ↔ z ∈ l := by
  unfold jsSortDesc
  rw [jsSortDesc_go_mem]
  simp

lemma jsSortDesc_go_pairwise {α β : Type} [LinearOrder β] (score : α → β)
    (R : α → α → Prop) : ∀ (l acc : List α),
    acc.Pairwise (fun a b => score b < score a ∨ (score a = score b ∧ R a b)) →
    (∀ y ∈ acc, ∀ x ∈ l, R y x) → l.Pairwise R →
    (l.foldl (fun acc x => insDesc score x acc) acc).Pairwise
      (fun a b => score b < score a ∨ (score a = score b ∧ R a b)) := by
  intro l
  induction l with
  | nil => intro acc h _ _; exact h
  | cons x xs ih =>
    intro acc hacc hcross hl
    rcases List.pairwise_cons.mp hl with ⟨hx_xs, hxs⟩
    rw [List.foldl_cons]
    apply ih
    · exact insDesc_pairwise score R x acc hacc
        (fun y hy => hcross y hy x (List.mem_cons_self _ _))
    · intro y hy x' hx'
      rcases (insDesc_mem score x acc y).mp hy with rfl | hy'
      · exact hx_xs x' hx'
      · exact hcross y hy' x' (List.mem_cons_of_mem _ hx')
    · exact hxs

lemma jsSortDesc_pairwise {α β : Type} [LinearOrder β] (score : α → β)
    (R : α → α → Prop) (l : List α) (hl : l.Pairwise R) :
    (jsSortDesc score l).Pairwise
      (fun a b => score b < score a ∨ (score a = score b ∧ R a b)) :=
  jsSortDesc_go_pairwise score R l [] (List.Pairwise.nil) (by simp) hl

lemma jsSortDesc_head_eq {α β : Type} [LinearOrder β] (score : α → β)
    (R : α → α → Prop) (l : List α) (hl : l.Pairwise R) (e : α) (he : e ∈ l)
    (hmax : ∀ x ∈ l, score x ≤ score e)
    (htie : ∀ x ∈ l, score x = score e → ¬ R x e) :
    (jsSortDesc score l).head? = some e := by
  rcases hout : jsSortDesc score l with - | ⟨h, t⟩
  · exfalso
    have : e ∈ jsSortDesc score l := (jsSortDesc_mem score l e).mpr he
    rw [hout] at this
    exact List.not_mem_nil e this
  · have hpw := jsSortDesc_pairwise score R l hl
    rw [hout] at hpw
    rcases List.pairwise_cons.mp hpw with ⟨hh, -⟩
    have hhl : h ∈ l := by
      rw [← jsSortDesc_mem score l h, hout]
      exact List.mem_cons_self _ _
    have hel : e ∈ h :: t := by
      rw [← hout]
      exact (jsSortDesc_mem score l e).mpr he
    rcases List.mem_cons.mp hel with rfl | het
    · rfl
    · exfalso
      rcases hh e het with hlt | ⟨heq, hR⟩
      · exact absurd (hmax h hhl) (not_le.mpr hlt)
      · exact htie h hhl heq hR

/-! ### C3: working key length resolution -/

/-- **C3**: `workingK` returns the pin when one is set; otherwise the
Kasiski candidate with the most votes (ties to smallest k) when the
restricted vote table is nonempty, else the IoC sweep candidate with the
highest mean IoC (ties to smallest k), else 1. Both tables arrive sorted
ascending by k (the code sorts the vote table and builds the sweep in k
order), which the Pairwise hypotheses record. -/
theorem C3_workingK_policy :
    (∀ (p : ℕ) (kas : List (ℕ × ℕ)) (iocD : List (ℕ × ℚ)), 1 ≤ p →
      workingK (some p) kas iocD = p)
    ∧ (∀ (kas : List (ℕ × ℕ)) (iocD : List (ℕ × ℚ)) (e : ℕ × ℕ),
        kas.Pairwise (fun a b => a.1 < b.1) → (∀ x ∈ kas, 2 ≤ x.1) →
        e ∈ kas → (∀ x ∈ kas, x.2 ≤ e.2) → (∀ x ∈ kas, x.2 = e.2 → e.1 ≤ x.1) →
        workingK none kas iocD = e.1)
    ∧ (∀ (iocD : List (ℕ × ℚ)) (e : ℕ × ℚ),
        iocD.Pairwise (fun a b => a.1 < b.1) → (∀ x ∈ iocD, 1 ≤ x.1) →
        e ∈ iocD → (∀ x ∈ iocD, x.2 ≤ e.2) → (∀ x ∈ iocD, x.2 = e.2 → e.1 ≤ x.1) →
        workingK none [] iocD = e.1)
    ∧ workingK none [] [] = 1 := by
  refine ⟨?_, ?_, ?_, rfl⟩
  · intro p kas iocD hp
    unfold workingK
    rw [if_pos (by simpa using by omega : (some p).getD 0 ≠ 0)]
    rfl
  · intro kas iocD e hasc hk2 he hmax htie
    unfold workingK
    rw [if_neg (by simp)]
    have hh : (jsSortDesc Prod.snd kas).head? = some e :=
      jsSortDesc_head_eq Prod.snd (fun a b => a.1 < b.1) kas hasc e he hmax
        (fun x hx hs => by have := htie x hx hs; omega)
    rw [hh]
    simp only [Option.map_some', jsOrNat]
    rw [if_neg (by have := hk2 e he; omega)]
  · intro iocD e hasc hk1 he hmax htie
    unfold workingK
    rw [if_neg (by simp)]
    have hh : (jsSortDesc Prod.snd iocD).head? = some e :=
      jsSortDesc_head_eq Prod.snd (fun a b => a.1 < b.1) iocD hasc e he hmax
        (fun x hx hs => by have := htie x hx hs; omega)
    rw [show jsSortDesc Prod.snd ([] : List (ℕ × ℕ)) = [] from rfl, hh]
    simp only [List.head?_nil, Option.map_none', Option.map_some', jsOrNat]
    rw [if_neg (by have := hk1 e he; omega)]

/-- Witness for C3: an empty vote table and an IoC sweep peaking at k = 5
resolve to 5 when unpinned; a pin of 9 is returned as-is. -/
theorem C3_workingK_policy_witness :
    workingK (some 9) [(2, 3)] [] = 9
    ∧ workingK none [] [(1, 0.04), (2, 0.05), (5, 0.07)] = 5 := by
  constructor
  · exact C3_workingK_policy.1 9 [(2, 3)] [] (by omega)
  · exact C3_workingK_policy.2.2.1 [(1, 0.04), (2, 0.05), (5, 0.07)] (5, 0.07)
      (by norm_num) (by norm_num)
      (by norm_num)
      (by intro x hx; fin_cases hx <;> norm_num)
      (by intro x hx; fin_cases hx <;> norm_num)

/-! ### C4: splitColumns -/

/-- The claim's column content: the characters of `s` whose stream position
is ≡ `j` (mod `k`), in original order; `i` is the position of the first
character of `s`. -/
def colsFrom (k j : ℕ) : Str → ℕ → Str
  | [], _ => []
  | c :: rest, i => (if i % k = j then [c] else []) ++ colsFrom k j rest (i + 1)

lemma tail_length_sum_le (cols : List Str) :
    (cols.map (List.length ∘ List.tail)).sum ≤ (cols.map List.length).sum := by
  induction cols with
  | nil => simp
  | cons y ys ih =>
    rw [List.map_cons, List.map_cons, List.sum_cons, List.sum_cons]
    have : (List.length ∘ List.tail) y ≤ y.length := by
      cases y <;> simp [Function.comp]
    omega

lemma tail_length_sum_lt (cols : List Str) (c : Str) (hc : c ∈ cols) (hcne : c ≠ []) :
    (cols.map (List.length ∘ List.tail)).sum < (cols.map List.length).sum := by
  induction cols with
  | nil => exact absurd hc (List.not_mem_nil c)
  | cons x xs ih =>
    rw [List.map_cons, List.map_cons, List.sum_cons, List.sum_cons]
    rcases List.mem_cons.mp hc with rfl | hc'
    · have h1 : (List.length ∘ List.tail) c < c.length := by
        cases c with
        | nil => exact absurd rfl hcne
        | cons a as => simp [Function.comp]
      have h2 := tail_length_sum_le xs
      omega
    · have h1 : (List.length ∘ List.tail) x ≤ x.length := by
        cases x <;> simp [Function.comp]
      have h2 := ih hc'
      omega

/-- Round-robin reassembly of a column set: one character from each nonempty
column in order, then repeat on the tails. -/
def roundRobin (cols : List Str) : Str :=
  if cols.all (fun c => c.isEmpty) then []
  else cols.filterMap List.head? ++ roundRobin (cols.map List.tail)
termination_by (cols.map List.length).sum
decreasing_by
  rw [List.map_map]
  have hlt : ∃ c ∈ cols, c ≠ [] := by
    by_contra hcon
    push_neg at hcon
    apply ‹¬ (cols.all (fun c => c.isEmpty)) = true›
    rw [List.all_eq_true]
    intro x hx
    rw [List.isEmpty_iff]
    exact hcon x hx
  obtain ⟨c, hc, hcne⟩ := hlt
  exact tail_length_sum_lt cols c hc hcne

lemma colsFrom_add_k (k j : ℕ) : ∀ (s : Str) (i : ℕ),
    colsFrom k j s (i + k) = colsFrom k j s i := by
  intro s
  induction s with
  | nil => intro i; rfl
  | cons c rest ih =>
    intro i
    rw [colsFrom, colsFrom, Nat.add_mod_right,
      show i + k + 1 = (i + 1) + k from by omega, ih]

lemma colsFrom_append (k j : ℕ) : ∀ (a b : Str) (i : ℕ),
    colsFrom k j (a ++ b) i = colsFrom k j a i ++ colsFrom k j b (i + a.length) := by
  intro a
  induction a with
  | nil => intro b i; simp [colsFrom]
  | cons c rest ih =>
    intro b i
    rw [List.cons_append, colsFrom, colsFrom, ih,
      show i + (c :: rest).length = (i + 1) + rest.length from by simp; omega,
      List.append_assoc]

lemma colsFrom_short (k j : ℕ) : ∀ (a : Str) (i : ℕ), i + a.length ≤ k →
    colsFrom k j a i
      = if i ≤ j ∧ j < i + a.length then [a.getD (j - i) 0] else [] := by
  intro a
  induction a with
  | nil =>
    intro i hi
    rw [colsFrom, if_neg (by simp only [List.length_nil]; omega)]
  | cons c rest ih =>
    intro i hi
    rw [List.length_cons] at hi
    have him : i % k = i := Nat.mod_eq_of_lt (by omega)
    rw [colsFrom, him, ih (i + 1) (by omega)]
    by_cases hij : i = j
    · subst hij
      rw [if_pos rfl, if_neg (by omega), if_pos (by simp only [List.length_cons]; omega)]
      simp
    · rw [if_neg hij]
      by_cases hj2 : i + 1 ≤ j ∧ j < i + 1 + rest.length
      · rw [if_pos hj2, if_pos (by simp only [List.length_cons]; omega)]
        have hji : j - i = (j - (i + 1)) + 1 := by omega
        rw [List.nil_append, hji, List.getD_cons_succ]
      · rw [if_neg hj2, if_neg (by simp only [List.length_cons]; omega), List.nil_append]

lemma colsFrom_decomp (k j : ℕ) (hk : 1 ≤ k) (s : Str) :
    colsFrom k j s 0 = colsFrom k j (s.take k) 0 ++ colsFrom k j (s.drop k) 0 := by
  conv_lhs => rw [← List.take_append_drop k s]
  rw [colsFrom_append]
  congr 1
  rcases le_or_lt k s.length with hl | hl
  · rw [List.length_take, min_eq_left hl, Nat.zero_add]
    have := colsFrom_add_k k j (s.drop k) 0
    rw [Nat.zero_add] at this
    exact this
  · rw [List.drop_eq_nil_of_le (by omega)]
    rfl

lemma colsFrom_head (k j : ℕ) (hk : 1 ≤ k) (hj : j < k) (s : Str) :
    (colsFrom k j s 0).head? = s.get? j := by
  rw [colsFrom_decomp k j hk s,
    colsFrom_short k j (s.take k) 0 (by rw [List.length_take]; omega)]
  rcases lt_or_ge j s.length with hjs | hjs
  · rw [if_pos (by rw [List.length_take]; omega)]
    rw [List.singleton_append, List.head?_cons, List.get?_eq_getElem?,
      List.getElem?_eq_getElem hjs]
    congr 1
    rw [Nat.sub_zero, List.getD_eq_getElem _ _ (by rw [List.length_take]; omega),
      List.getElem_take]
  · rw [if_neg (by rw [List.length_take]; omega), List.nil_append,
      List.drop_eq_nil_of_le (by omega)]
    rw [show colsFrom k j [] 0 = [] from rfl, List.get?_eq_getElem?,
      List.getElem?_eq_none (by omega)]
    rfl

lemma colsFrom_tail (k j : ℕ) (hk : 1 ≤ k) (hj : j < k) (s : Str) :
    (colsFrom k j s 0).tail = colsFrom k j (s.drop k) 0 := by
  rw [colsFrom_decomp k j hk s,
    colsFrom_short k j (s.take k) 0 (by rw [List.length_take]; omega)]
  by_cases hcond : (0 ≤ j ∧ j < 0 + (s.take k).length)
  · rw [if_pos hcond, List.singleton_append, List.tail_cons]
  · rw [if_neg hcond, List.nil_append]
    rw [List.length_take] at hcond
    rw [List.drop_eq_nil_of_le (by omega)]
    rfl

lemma filterMap_get_range : ∀ (s : Str) (k : ℕ),
    (List.range k).filterMap (fun j => s.get? j) = s.take k := by
  intro s
  induction s with
  | nil =>
    intro k
    rw [List.take_nil]
    rw [show (fun j => ([] : Str).get? j) = fun _ => none from by
      funext j; rw [List.get?_eq_getElem?, List.getElem?_nil]]
    simp
  | cons c cs ih =>
    intro k
    cases k with
    | zero => rfl
    | succ k =>
      rw [List.range_succ_eq_map, List.filterMap_cons, List.take_succ_cons]
      have h0 : (c :: cs).get? 0 = some c := rfl
      rw [h0, List.filterMap_map]
      have : ((fun j => (c :: cs).get? j) ∘ Nat.succ) = fun j => cs.get? j := by
        funext j
        simp [Function.comp]
      rw [this, ih k]

lemma roundRobin_colsFrom (k : ℕ) (hk : 1 ≤ k) : ∀ (n : ℕ) (s : Str), s.length ≤ n →
    roundRobin ((List.range k).map (fun j => colsFrom k j s 0)) = s := by
  intro n
  induction n with
  | zero =>
    intro s hs
    have hnil : s = [] := List.eq_nil_of_length_eq_zero (by omega)
    subst hnil
    rw [roundRobin, if_pos]
    rw [List.all_eq_true]
    intro x hx
    rw [List.mem_map] at hx
    obtain ⟨j, -, rfl⟩ := hx
    rfl
  | succ n ih =>
    intro s hs
    cases s with
    | nil =>
      rw [roundRobin, if_pos]
      rw [List.all_eq_true]
      intro x hx
      rw [List.mem_map] at hx
      obtain ⟨j, -, rfl⟩ := hx
      rfl
    | cons c rest =>
      rw [roundRobin, if_neg]
      · rw [List.filterMap_map, List.map_map]
        have hheads : ((List.range k).filterMap
            (List.head? ∘ fun j => colsFrom k j (c :: rest) 0))
            = (c :: rest).take k := by
          rw [← filterMap_get_range (c :: rest) k]
          apply List.filterMap_congr
          intro j hj
          exact colsFrom_head k j hk (List.mem_range.mp hj) (c :: rest)
        have htails : (List.range k).map (List.tail ∘ fun j => colsFrom k j (c :: rest) 0)
            = (List.range k).map (fun j => colsFrom k j ((c :: rest).drop k) 0) := by
          apply List.map_congr_left
          intro j hj
          exact colsFrom_tail k j hk (List.mem_range.mp hj) (c :: rest)
        have hlen2 : ((c :: rest).drop k).length ≤ n := by
          rw [List.length_drop]
          simp only [List.length_cons] at hs ⊢
          omega
        rw [hheads, htails, ih ((c :: rest).drop k) hlen2]
        exact List.take_append_drop k (c :: rest)
      · intro hall
        rw [List.all_eq_true] at hall
        have h0 := hall (colsFrom k 0 (c :: rest) 0)
          (List.mem_map_of_mem _ (List.mem_range.mpr (by omega)))
        rw [colsFrom, Nat.zero_mod, if_pos rfl, List.cons_append] at h0
        exact absurd (List.isEmpty_iff.mp h0) (List.cons_ne_nil _ _)

lemma sum_map_range (f : ℕ → ℕ) : ∀ (k : ℕ),
    ((List.range k).map f).sum = ∑ j ∈ Finset.range k, f j := by
  intro k
  induction k with
  | zero => rfl
  | succ k ih =>
    rw [List.range_succ, List.map_append, List.sum_append, ih, Finset.sum_range_succ]
    simp

lemma colsFrom_length_sum (k : ℕ) (hk : 1 ≤ k) : ∀ (s : Str) (i : ℕ),
    ∑ j ∈ Finset.range k, (colsFrom k j s i).length = s.length := by
  intro s
  induction s with
  | nil => intro i; simp [colsFrom]
  | cons c rest ih =>
    intro i
    have hsplit : ∀ j, (colsFrom k j (c :: rest) i).length
        = (if i % k = j then 1 else 0) + (colsFrom k j rest (i + 1)).length := by
      intro j
      rw [colsFrom, List.length_append]
      by_cases h : i % k = j <;> simp [h]
    simp only [hsplit]
    rw [Finset.sum_add_distrib, ih (i + 1), Finset.sum_ite_eq,
      if_pos (Finset.mem_range.mpr (Nat.mod_lt _ (by omega)))]
    simp only [List.length_cons]
    omega

lemma appendAt_getD (cols : List Str) (idx j : ℕ) (c : ℕ) (hj : j < cols.length) :
    (appendAt cols idx c).getD j [] = cols.getD j [] ++ (if idx = j then [c] else []) := by
  rcases eq_or_ne idx j with h | h
  · subst h
    simp [appendAt, List.getD_eq_getElem?_getD, List.getElem?_set_self hj]
  · simp [appendAt, List.getD_eq_getElem?_getD, List.getElem?_set_ne h, h]

lemma splitColumnsAux_length (k : ℕ) : ∀ (s : Str) (i : ℕ) (cols : List Str),
    (splitColumnsAux k s i cols).length = cols.length := by
  intro s
  induction s with
  | nil => intro i cols; rfl
  | cons c rest ih =>
    intro i cols
    rw [splitColumnsAux, ih]
    simp [appendAt]

lemma splitColumnsAux_getD (k : ℕ) (hk : 1 ≤ k) : ∀ (s : Str) (i : ℕ) (cols : List Str)
    (j : ℕ), cols.length = k → j < k →
    (splitColumnsAux k s i cols).getD j [] = cols.getD j [] ++ colsFrom k j s i := by
  intro s
  induction s with
  | nil => intro i cols j _ _; simp [splitColumnsAux, colsFrom]
  | cons c rest ih =>
    intro i cols j hlen hj
    rw [splitColumnsAux, ih (i + 1) _ j (by simp [appendAt, hlen]) hj,
      appendAt_getD cols (i % k) j c (by omega), colsFrom, List.append_assoc]

/-- **C4**: `splitColumns` produces exactly `k` columns; column `j` holds, in
order, precisely the stream characters at positions ≡ j (mod k); the column
lengths sum to the stream length; and round-robin reassembly reconstructs the
stream exactly. -/
theorem C4_splitColumns (s : Str) (k : ℕ) (hk : 1 ≤ k) :
    (splitColumns s k).length = k
    ∧ (∀ j, j < k → (splitColumns s k).getD j [] = colsFrom k j s 0)
    ∧ ((splitColumns s k).map List.length).sum = s.length
    ∧ roundRobin (splitColumns s k) = s := by
  have hlen : (splitColumns s k).length = k := by
    unfold splitColumns
    rw [splitColumnsAux_length, List.length_replicate]
  have hgetD : ∀ j, j < k → (splitColumns s k).getD j [] = colsFrom k j s 0 := by
    intro j hj
    unfold splitColumns
    rw [splitColumnsAux_getD k hk s 0 _ j (List.length_replicate _ _) hj,
      List.getD_eq_getElem?_getD, List.getElem?_replicate, if_pos hj]
    rfl
  have hlist : splitColumns s k = (List.range k).map (fun j => colsFrom k j s 0) := by
    apply List.ext_getElem?
    intro n
    rcases lt_or_ge n k with hn | hn
    · rw [List.getElem?_eq_getElem (by omega), List.getElem?_map,
        List.getElem?_range hn]
      simp only [Option.map_some']
      congr 1
      rw [← hgetD n hn, List.getD_eq_getElem _ _ (by omega)]
    · rw [List.getElem?_eq_none (by omega),
        List.getElem?_eq_none (by simp only [List.length_map, List.length_range]; omega)]
  refine ⟨hlen, hgetD, ?_, ?_⟩
  · rw [hlist, List.map_map, sum_map_range]
    exact colsFrom_length_sum k hk s 0
  · rw [hlist]
    exact roundRobin_colsFrom k hk s.length s le_rfl

/-- Witness for C4 at the stream `"ABABABAB"` with k = 2. -/
theorem C4_splitColumns_witness :
    (splitColumns [65, 66, 65, 66, 65, 66, 65, 66] 2).length = 2
    ∧ (splitColumns [65, 66, 65, 66, 65, 66, 65, 66] 2).getD 0 []
        = colsFrom 2 0 [65, 66, 65, 66, 65, 66, 65, 66] 0
    ∧ ((splitColumns [65, 66, 65, 66, 65, 66, 65, 66] 2).map List.length).sum = 8
    ∧ roundRobin (splitColumns [65, 66, 65, 66, 65, 66, 65, 66] 2)
        = [65, 66, 65, 66, 65, 66, 65, 66] :=
  ⟨(C4_splitColumns [65, 66, 65, 66, 65, 66, 65, 66] 2 (by omega)).1,
   (C4_splitColumns [65, 66, 65, 66, 65, 66, 65, 66] 2 (by omega)).2.1 0 (by omega),
   (C4_splitColumns [65, 66, 65, 66, 65, 66, 65, 66] 2 (by omega)).2.2.1,
   (C4_splitColumns [65, 66, 65, 66, 65, 66, 65, 66] 2 (by omega)).2.2.2⟩

/-! ### C8: findRepeats -/

/-- The claim's position list for a gram: window starts whose length-`n`
slice equals the gram, in ascending order, restricted to the first `m`
windows. -/
def posUpTo (s : Str) (n m : ℕ) (g : Str) : List ℕ :=
  (List.range m).filter (fun i => decide (slice s i n = g))

/-- The claim's position list for a gram over the whole stream. -/
def positionsOf (s : Str) (n : ℕ) (g : Str) : List ℕ :=
  posUpTo s n (s.length + 1 - n) g

lemma posUpTo_succ (s : Str) (n m : ℕ) (g : Str) :
    posUpTo s n (m + 1) g
      = posUpTo s n m g ++ (if slice s m n = g then [m] else []) := by
  unfold posUpTo
  rw [List.range_succ, List.filter_append]
  congr 1
  by_cases h : slice s m n = g <;> simp [h]

lemma posUpTo_mem_lt (s : Str) (n m : ℕ) (g : Str) :
    ∀ p ∈ posUpTo s n m g, p < m := by
  intro p hp
  have := List.mem_filter.mp hp
  exact List.mem_range.mp this.1

lemma headD_append_left (ps l : List ℕ) (h : ps ≠ []) :
    (ps ++ l).headD 0 = ps.headD 0 := by
  cases ps with
  | nil => exact absurd rfl h
  | cons a as => rfl

lemma headD_mem (ps : List ℕ) (h : ps ≠ []) : ps.headD 0 ∈ ps := by
  cases ps with
  | nil => exact absurd rfl h
  | cons a as => exact List.mem_cons_self a as

/-- The invariant of `findRepeats`' collection loop after `m` windows: the
map holds exactly the grams seen so far, each with its ascending position
list, with distinct keys, in order of first occurrence. -/
def MapInv (s : Str) (n m : ℕ) (mp : List (Str × List ℕ)) : Prop :=
  (∀ g ps, (g, ps) ∈ mp → ps = posUpTo s n m g ∧ ps ≠ [])
  ∧ (∀ g, posUpTo s n m g ≠ [] → ∃ ps, (g, ps) ∈ mp)
  ∧ (mp.map Prod.fst).Nodup
  ∧ mp.Pairwise (fun a b => a.2.headD 0 < b.2.headD 0)

lemma addPos_absent (g0 : Str) (i : ℕ) : ∀ (mp : List (Str × List ℕ)),
    (∀ e ∈ mp, e.1 ≠ g0) → addPos g0 i mp = mp ++ [(g0, [i])] := by
  intro mp
  induction mp with
  | nil => intro _; rfl
  | cons e rest ih =>
    intro h
    obtain ⟨g', ps⟩ := e
    rw [addPos, if_neg (h (g', ps) (List.mem_cons_self _ _)),
      ih (fun e he => h e (List.mem_cons_of_mem _ he)), List.cons_append]

lemma addPos_found (g0 : Str) (i : ℕ) : ∀ (pre : List (Str × List ℕ))
    (suf : List (Str × List ℕ)) (ps0 : List ℕ), (∀ e ∈ pre, e.1 ≠ g0) →
    addPos g0 i (pre ++ (g0, ps0) :: suf) = pre ++ (g0, ps0 ++ [i]) :: suf := by
  intro pre
  induction pre with
  | nil => intro suf ps0 _; rw [List.nil_append, addPos, if_pos rfl, List.nil_append]
  | cons e rest ih =>
    intro suf ps0 h
    obtain ⟨g', ps'⟩ := e
    rw [List.cons_append, addPos, if_neg (h (g', ps') (List.mem_cons_self _ _)),
      ih suf ps0 (fun e he => h e (List.mem_cons_of_mem _ he)), List.cons_append]

lemma exists_first_split (g0 : Str) : ∀ (mp : List (Str × List ℕ)),
    (∃ e ∈ mp, e.1 = g0) →
    ∃ pre ps0 suf, mp = pre ++ (g0, ps0) :: suf ∧ ∀ e ∈ pre, e.1 ≠ g0 := by
  intro mp
  induction mp with
  | nil =>
    rintro ⟨e, he, -⟩
    exact absurd he (List.not_mem_nil e)
  | cons x rest ih =>
    intro h
    by_cases hx : x.1 = g0
    · obtain ⟨g', ps'⟩ := x
      refine ⟨[], ps', rest, ?_, by simp⟩
      rw [List.nil_append]
      simp only at hx
      rw [hx]
    · have h' : ∃ e ∈ rest, e.1 = g0 := by
        obtain ⟨e, he, heq⟩ := h
        rcases List.mem_cons.mp he with rfl | he'
        · exact absurd heq hx
        · exact ⟨e, he', heq⟩
      obtain ⟨pre, ps0, suf, heq, hpre⟩ := ih h'
      refine ⟨x :: pre, ps0, suf, by rw [heq, List.cons_append], ?_⟩
      intro e he
      rcases List.mem_cons.mp he with rfl | he'
      · exact hx
      · exact hpre e he'

lemma firstPos_lt (s : Str) (n m : ℕ) (mp : List (Str × List ℕ))
    (hI1 : ∀ g ps, (g, ps) ∈ mp → ps = posUpTo s n m g ∧ ps ≠ []) :
    ∀ e ∈ mp, e.2.headD 0 < m := by
  rintro ⟨g, ps⟩ hmem
  obtain ⟨hps, hne⟩ := hI1 g ps hmem
  show ps.headD 0 < m
  have hm := headD_mem ps hne
  rw [hps] at hm ⊢
  exact posUpTo_mem_lt s n m g _ hm

lemma mapInv_step (s : Str) (n m : ℕ) (mp : List (Str × List ℕ))
    (h : MapInv s n m mp) : MapInv s n (m + 1) (addPos (slice s m n) m mp) := by
  obtain ⟨hI1, hI2, hI3, hI4⟩ := h
  by_cases hpresent : ∃ e ∈ mp, e.1 = slice s m n
  · obtain ⟨pre, ps0, suf, heq, hpre⟩ := exists_first_split (slice s m n) mp hpresent
    subst heq
    rw [addPos_found (slice s m n) m pre suf ps0 hpre]
    have hmid : (slice s m n, ps0) ∈ pre ++ (slice s m n, ps0) :: suf :=
      List.mem_append_right _ (List.mem_cons_self _ _)
    obtain ⟨hps0, hps0ne⟩ := hI1 _ _ hmid
    have hsufne : ∀ e ∈ suf, e.1 ≠ slice s m n := by
      have hkeys := hI3
      rw [List.map_append, List.map_cons] at hkeys
      have h2 := (List.nodup_append.mp hkeys).2.1
      have h3 := (List.nodup_cons.mp h2).1
      intro e he hcon
      have hmm : slice s m n ∈ suf.map Prod.fst := by
        rw [← hcon]
        exact List.mem_map_of_mem Prod.fst he
      exact h3 hmm
    refine ⟨?_, ?_, ?_, ?_⟩
    · intro g ps hmem
      rcases List.mem_append.mp hmem with hmem' | hmem'
      · have hgne : g ≠ slice s m n := fun hcon =>
          hpre (g, ps) hmem' (by simpa using hcon)
        obtain ⟨h1, h2⟩ := hI1 g ps (List.mem_append_left _ hmem')
        rw [posUpTo_succ, if_neg (fun hcon => hgne hcon.symm), List.append_nil]
        exact ⟨h1, h2⟩
      · rcases List.mem_cons.mp hmem' with hmem'' | hmem''
        · obtain ⟨hg, hps⟩ := Prod.mk.injEq .. ▸ hmem''
          subst hg
          rw [posUpTo_succ, if_pos rfl, ← hps0, hps]
          exact ⟨rfl, by simp⟩
        · have hgne : g ≠ slice s m n := fun hcon =>
            hsufne (g, ps) hmem'' (by simpa using hcon)
          obtain ⟨h1, h2⟩ := hI1 g ps
            (List.mem_append_right _ (List.mem_cons_of_mem _ hmem''))
          rw [posUpTo_succ, if_neg (fun hcon => hgne hcon.symm), List.append_nil]
          exact ⟨h1, h2⟩
    · intro g hne
      rw [posUpTo_succ] at hne
      by_cases hold : posUpTo s n m g ≠ []
      · obtain ⟨ps, hps⟩ := hI2 g hold
        rcases List.mem_append.mp hps with hmem' | hmem'
        · exact ⟨ps, List.mem_append_left _ hmem'⟩
        · rcases List.mem_cons.mp hmem' with hmem'' | hmem''
          · obtain ⟨hg, -⟩ := Prod.mk.injEq .. ▸ hmem''
            subst hg
            exact ⟨ps0 ++ [m], List.mem_append_right _ (List.mem_cons_self _ _)⟩
          · exact ⟨ps, List.mem_append_right _ (List.mem_cons_of_mem _ hmem'')⟩
      · push_neg at hold
        rw [hold, List.nil_append] at hne
        have hg : slice s m n = g := by
          by_contra hcon
          rw [if_neg hcon] at hne
          exact hne rfl
        subst hg
        exact ⟨ps0 ++ [m], List.mem_append_right _ (List.mem_cons_self _ _)⟩
    · have : (pre ++ (slice s m n, ps0 ++ [m]) :: suf).map Prod.fst
          = (pre ++ (slice s m n, ps0) :: suf).map Prod.fst := by
        rw [List.map_append, List.map_cons, List.map_append, List.map_cons]
      rw [this]
      exact hI3
    · have hhead : (ps0 ++ [m]).headD 0 = ps0.headD 0 := headD_append_left ps0 [m] hps0ne
      rw [List.pairwise_append] at hI4 ⊢
      obtain ⟨hpre2, hmidsuf, hcross⟩ := hI4
      rw [List.pairwise_cons] at hmidsuf ⊢
      obtain ⟨hmid2, hsuf2⟩ := hmidsuf
      refine ⟨hpre2, ⟨?_, hsuf2⟩, ?_⟩
      · intro e he
        simp only [hhead]
        exact hmid2 e he
      · intro a ha b hb
        rcases List.mem_cons.mp hb with rfl | hb'
        · simp only [hhead]
          exact hcross a ha _ (List.mem_cons_self _ _)
        · exact hcross a ha b (List.mem_cons_of_mem _ hb')
  · push_neg at hpresent
    rw [addPos_absent (slice s m n) m mp hpresent]
    have hempty : posUpTo s n m (slice s m n) = [] := by
      by_contra hne
      obtain ⟨ps, hps⟩ := hI2 _ hne
      exact hpresent (slice s m n, ps) hps rfl
    refine ⟨?_, ?_, ?_, ?_⟩
    · intro g ps hmem
      rcases List.mem_append.mp hmem with hmem' | hmem'
      · have hgne : g ≠ slice s m n := fun hcon =>
          hpresent (g, ps) hmem' (by simpa using hcon)
        obtain ⟨h1, h2⟩ := hI1 g ps hmem'
        rw [posUpTo_succ, if_neg (fun hcon => hgne hcon.symm), List.append_nil]
        exact ⟨h1, h2⟩
      · rcases List.mem_cons.mp hmem' with hmem'' | hmem''
        · obtain ⟨hg, hps⟩ := Prod.mk.injEq .. ▸ hmem''
          subst hg
          rw [posUpTo_succ, if_pos rfl, hempty, List.nil_append, hps]
          exact ⟨rfl, by simp⟩
        · exact absurd hmem'' (List.not_mem_nil _)
    · intro g hne
      rw [posUpTo_succ] at hne
      by_cases hold : posUpTo s n m g ≠ []
      · obtain ⟨ps, hps⟩ := hI2 g hold
        exact ⟨ps, List.mem_append_left _ hps⟩
      · push_neg at hold
        rw [hold, List.nil_append] at hne
        have hg : slice s m n = g := by
          by_contra hcon
          rw [if_neg hcon] at hne
          exact hne rfl
        subst hg
        exact ⟨[m], List.mem_append_right _ (List.mem_cons_self _ _)⟩
    · rw [List.map_append, List.map_cons, List.map_nil, List.nodup_append]
      refine ⟨hI3, by simp, ?_⟩
      intro g hg1 hg2
      simp only [List.mem_cons, List.not_mem_nil, or_false] at hg2
      subst hg2
      obtain ⟨e, he, heq⟩ := List.mem_map.mp hg1
      exact hpresent e he heq
    · rw [List.pairwise_append]
      refine ⟨hI4, List.pairwise_singleton _ _, ?_⟩
      intro a ha b hb
      simp only [List.mem_cons, List.not_mem_nil, or_false] at hb
      subst hb
      have := firstPos_lt s n m mp hI1 a ha
      simpa using this

lemma buildMap_inv (s : Str) (n : ℕ) : ∀ (m : ℕ),
    MapInv s n m ((List.range m).foldl (fun mp i => addPos (slice s i n) i mp) []) := by
  intro m
  induction m with
  | zero =>
    refine ⟨?_, ?_, ?_, ?_⟩
    · intro g ps hmem
      exact absurd hmem (List.not_mem_nil _)
    · intro g hne
      exact absurd rfl hne
    · exact List.nodup_nil
    · exact List.Pairwise.nil
  | succ m ih =>
    rw [List.range_succ, List.foldl_append, List.foldl_cons, List.foldl_nil]
    exact mapInv_step s n m _ ih

/-- **C8**: `findRepeats` contains exactly the grams with at least two
occurrences, each with its full ascending 0-based position list; it is
sorted by occurrence count descending with ties in first-seen (first
occurrence position) order; and an `n` larger than the stream yields the
empty table. -/
theorem C8_findRepeats (s : Str) (n : ℕ) :
    (s.length < n → findRepeats s n = [])
    ∧ (∀ g ps, (g, ps) ∈ findRepeats s n ↔ (ps = positionsOf s n g ∧ 2 ≤ ps.length))
    ∧ (findRepeats s n).Pairwise (fun a b => b.2.length < a.2.length
        ∨ (a.2.length = b.2.length ∧ a.2.headD 0 < b.2.headD 0)) := by
  obtain ⟨hI1, hI2, hI3, hI4⟩ := buildMap_inv s n (s.length + 1 - n)
  refine ⟨?_, ?_, ?_⟩
  · intro hlt
    unfold findRepeats buildMap
    rw [show s.length + 1 - n = 0 from by omega]
    rfl
  · intro g ps
    unfold findRepeats
    rw [jsSortDesc_mem, List.mem_filter]
    constructor
    · rintro ⟨hmem, hlen⟩
      obtain ⟨h1, -⟩ := hI1 g ps hmem
      exact ⟨h1, by simpa using hlen⟩
    · rintro ⟨hps, hlen⟩
      have hne : posUpTo s n (s.length + 1 - n) g ≠ [] := by
        intro hcon
        rw [hps] at hlen
        unfold positionsOf at hlen
        rw [hcon] at hlen
        simp at hlen
      obtain ⟨ps', hmem⟩ := hI2 g hne
      obtain ⟨h1, -⟩ := hI1 g ps' hmem
      have heq : ps' = ps := by rw [h1, hps]; rfl
      subst heq
      exact ⟨hmem, by simpa using hlen⟩
  · unfold findRepeats
    exact jsSortDesc_pairwise (α := Str × List ℕ) (β := ℕ) (fun e => e.2.length)
      (fun a b => a.2.headD 0 < b.2.headD 0) _
      (List.Pairwise.sublist (List.filter_sublist _) hI4)

/-- Witness for C8: on `"ABABABAB"` with n = 2, the gram `"AB"` appears with
positions `[0, 2, 4, 6]`; with n = 9 the table is empty. -/
theorem C8_findRepeats_witness :
    ([65, 66], [0, 2, 4, 6]) ∈ findRepeats [65, 66, 65, 66, 65, 66, 65, 66] 2
    ∧ findRepeats [65, 66, 65, 66, 65, 66, 65, 66] 9 = [] :=
  ⟨((C8_findRepeats [65, 66, 65, 66, 65, 66, 65, 66] 2).2.1 [65, 66] [0, 2, 4, 6]).mpr
      (by decide),
   (C8_findRepeats [65, 66, 65, 66, 65, 66, 65, 66] 9).1 (by decide)⟩

end VigLab
